import Mathlib

/-!
A verification development for the RecoPhyNC phylogenetic-network classifier.

The repository holds two generations of the same program: `RecoPhyNC.py`
(monolithic, spread-based stability propagation) and `Phylo.py` together with
the package `properties/` (modular, immediate-dominator based stability).
This file gives a shallow embedding of the graph model and of the algorithms
of both generations, and proves or refutes the specified properties.

Graphs are embedded concretely: a network is a list of nodes together with a
list of directed edges, both kept in insertion order, mirroring the way
`networkx.DiGraph` is populated by `add_edge` in the source.  Where the
source iterates over a python dict or set whose order is unspecified, the
embedding fixes a concrete order (and the statements note when a result
depends on it).
-/

set_option autoImplicit false

namespace RecoPhyNC

/-- A directed graph as built by repeated `add_edge` calls: `nodes` in first
appearance order, `edges` in insertion order (no parallel edges, as in
`networkx.DiGraph`). -/
structure Net where
  nodes : List Nat
  edges : List (Nat × Nat)
  deriving Repr, DecidableEq

namespace Net

/-- Out-neighbours of `v`, in edge insertion order (`successors_iter`). -/
def succs (N : Net) (v : Nat) : List Nat :=
  (N.edges.filter (fun e => e.1 = v)).map (fun e => e.2)

/-- In-neighbours of `v`, in edge insertion order (`predecessors_iter`). -/
def preds (N : Net) (v : Nat) : List Nat :=
  (N.edges.filter (fun e => e.2 = v)).map (fun e => e.1)

/-- `N.in_degree(v)`. -/
def inDeg (N : Net) (v : Nat) : Nat := (N.preds v).length

/-- `N.out_degree(v)`. -/
def outDeg (N : Net) (v : Nat) : Nat := (N.succs v).length

/-- `is_reticulation(v)`: in-degree strictly greater than one. -/
def isReticulation (N : Net) (v : Nat) : Bool := decide (1 < N.inDeg v)

/-- `node_type(v) == 'leaf'`: in-degree one and out-degree zero. -/
def isLeafNode (N : Net) (v : Nat) : Bool :=
  decide (N.inDeg v = 1) && decide (N.outDeg v = 0)

/-- Well-formedness of the embedding: node list without duplicates, edge
list without duplicates (no parallel edges in a `networkx.DiGraph`), and
every edge endpoint registered as a node. -/
def WF (N : Net) : Prop :=
  N.nodes.Nodup ∧ N.edges.Nodup ∧
    ∀ e ∈ N.edges, e.1 ∈ N.nodes ∧ e.2 ∈ N.nodes

instance (N : Net) : Decidable (WF N) := by unfold WF; infer_instance

end Net

/-! ## `PhyloNetwork._update_infos` (identical in both generations)

The loop walks the node list once, raising `DegreeError` on a vertex with
in- and out-degree one, on a vertex with both degrees above one, and on a
second root; after the loop a missing root raises as well.  The embedding
returns `Except`, so a raising run yields no classification state at all. -/

/-- The reasons `_update_infos` raises `DegreeError`. -/
inductive DegreeError where
  | degreeOneOne (v : Nat)
  | degreeBoth (v : Nat)
  | twoRoots (v r : Nat)
  | noRoot
  deriving Repr, DecidableEq

/-- The state assembled by `_update_infos`: root, regularity, reticulation
set and leaf set (the sets kept in visit order). -/
structure Infos where
  root : Option Nat
  regular : Option Nat
  reticulations : List Nat
  leaves : List Nat
  deriving Repr, DecidableEq

/-- The root/regularity part of the `_update_infos` loop body. -/
def infosRooted (N : Net) (s : Infos) (i : Nat) : Except DegreeError Infos :=
  if N.inDeg i = 0 then
    match s.root with
    | none => .ok { s with root := some i }
    | some r => .error (.twoRoots i r)
  else
    if 0 < N.outDeg i then
      match s.regular with
      | none => .ok { s with regular := some (N.inDeg i * N.outDeg i) }
      | some k => .ok { s with regular := if k = N.inDeg i * N.outDeg i then some k else some 0 }
    else .ok s

/-- The final two statements of the `_update_infos` loop body: record `i`
among reticulations and leaves according to its degrees. -/
def infosTag (N : Net) (i : Nat) (s : Infos) : Infos :=
  let s2 := if 1 < N.inDeg i then { s with reticulations := s.reticulations ++ [i] } else s
  if N.outDeg i = 0 then { s2 with leaves := s2.leaves ++ [i] } else s2

/-- One full body of the `for i in self.N` loop of `_update_infos`. -/
def infosStep (N : Net) (s : Infos) (i : Nat) : Except DegreeError Infos :=
  if N.inDeg i = 1 ∧ N.outDeg i = 1 then .error (.degreeOneOne i)
  else if 1 < N.inDeg i ∧ 1 < N.outDeg i then .error (.degreeBoth i)
  else
    match infosRooted N s i with
    | .error e => .error e
    | .ok s1 => .ok (infosTag N i s1)

/-- The `for i in self.N` loop of `_update_infos`. -/
def infosLoop (N : Net) : List Nat → Infos → Except DegreeError Infos
  | [], s => .ok s
  | i :: rest, s =>
      match infosStep N s i with
      | .error e => .error e
      | .ok s1 => infosLoop N rest s1

/-- `_update_infos`: run the loop over all nodes starting from the reset
state, then raise if no root was found, and finally clear regularity when
the root degree does not match. -/
def updateInfos (N : Net) : Except DegreeError Infos :=
  match infosLoop N N.nodes ⟨none, none, [], []⟩ with
  | .error e => .error e
  | .ok s =>
      match s.root with
      | none => .error .noRoot
      | some r =>
          .ok { s with regular := if s.regular = some (N.outDeg r) then s.regular else some 0 }

/-- A vertex violating one of the two degree invariants checked vertexwise. -/
def badDegree (N : Net) (v : Nat) : Bool :=
  (decide (N.inDeg v = 1) && decide (N.outDeg v = 1)) ||
    (decide (1 < N.inDeg v) && decide (1 < N.outDeg v))

/-- The in-degree-zero vertices of a node list. -/
def rootsIn (N : Net) (l : List Nat) : List Nat := l.filter (fun v => N.inDeg v = 0)

@[simp] theorem infosTag_root (N : Net) (i : Nat) (s : Infos) :
    (infosTag N i s).root = s.root := by
  unfold infosTag
  dsimp only
  split <;> split <;> rfl

theorem infosRooted_ok_iff (N : Net) (s : Infos) (i : Nat) :
    (infosRooted N s i).isOk = true ↔ (N.inDeg i = 0 → s.root = none) := by
  unfold infosRooted
  by_cases h0 : N.inDeg i = 0
  · cases hr : s.root <;> simp_all [Except.isOk, Except.toBool]
  · by_cases hp : 0 < N.outDeg i
    · cases hreg : s.regular <;> simp_all [Except.isOk, Except.toBool]
    · simp_all [Except.isOk, Except.toBool]

theorem infosRooted_root (N : Net) (s : Infos) (i : Nat) (s1 : Infos)
    (h : infosRooted N s i = .ok s1) :
    s1.root = if N.inDeg i = 0 ∧ s.root = none then some i else s.root := by
  unfold infosRooted at h
  by_cases h0 : N.inDeg i = 0
  · rw [if_pos h0] at h
    cases hr : s.root with
    | none =>
        rw [hr] at h
        cases h
        rw [if_pos ⟨h0, rfl⟩]
    | some r => rw [hr] at h; cases h
  · rw [if_neg h0] at h
    rw [if_neg (fun hc => h0 hc.1)]
    by_cases hp : 0 < N.outDeg i
    · rw [if_pos hp] at h
      cases hreg : s.regular with
      | none => rw [hreg] at h; cases h; rfl
      | some k => rw [hreg] at h; cases h; rfl
    · rw [if_neg hp] at h
      cases h
      rfl

theorem badDegree_eq_true_iff (N : Net) (i : Nat) :
    badDegree N i = true ↔
      (N.inDeg i = 1 ∧ N.outDeg i = 1) ∨ (1 < N.inDeg i ∧ 1 < N.outDeg i) := by
  simp [badDegree]

theorem infosStep_ok_iff (N : Net) (s : Infos) (i : Nat) :
    (infosStep N s i).isOk = true ↔
      badDegree N i = false ∧ (N.inDeg i = 0 → s.root = none) := by
  unfold infosStep
  by_cases h1 : N.inDeg i = 1 ∧ N.outDeg i = 1
  · have hb : badDegree N i = true := (badDegree_eq_true_iff N i).mpr (Or.inl h1)
    rw [if_pos h1]
    simp [Except.isOk, Except.toBool, hb]
  · by_cases h2 : 1 < N.inDeg i ∧ 1 < N.outDeg i
    · have hb : badDegree N i = true := (badDegree_eq_true_iff N i).mpr (Or.inr h2)
      rw [if_neg h1, if_pos h2]
      simp [Except.isOk, Except.toBool, hb]
    · have hb : badDegree N i = false := by
        cases hbb : badDegree N i
        · rfl
        · rcases (badDegree_eq_true_iff N i).mp hbb with h | h
          · exact absurd h h1
          · exact absurd h h2
      rw [if_neg h1, if_neg h2, hb]
      simp only [eq_self_iff_true, true_and]
      rw [← infosRooted_ok_iff N s i]
      cases hr : infosRooted N s i <;> simp [Except.isOk, Except.toBool]

theorem infosStep_root (N : Net) (s : Infos) (i : Nat) (s1 : Infos)
    (h : infosStep N s i = .ok s1) :
    s1.root = if N.inDeg i = 0 ∧ s.root = none then some i else s.root := by
  unfold infosStep at h
  split at h
  · cases h
  · split at h
    · cases h
    · cases hr : infosRooted N s i with
      | error e => rw [hr] at h; cases h
      | ok smid =>
          rw [hr] at h
          cases h
          rw [infosTag_root]
          exact infosRooted_root N s i smid hr

theorem rootsIn_cons (N : Net) (i : Nat) (rest : List Nat) :
    rootsIn N (i :: rest) =
      if N.inDeg i = 0 then i :: rootsIn N rest else rootsIn N rest := by
  unfold rootsIn
  by_cases h : N.inDeg i = 0 <;> simp [List.filter_cons, h]

theorem infosLoop_ok_iff (N : Net) (l : List Nat) (s : Infos) :
    (infosLoop N l s).isOk = true ↔
      (∀ v ∈ l, badDegree N v = false) ∧
        (rootsIn N l).length + (if s.root = none then 0 else 1) ≤ 1 := by
  induction l generalizing s with
  | nil =>
      simp only [infosLoop]
      constructor
      · intro _
        refine ⟨by simp, ?_⟩
        have hz : (rootsIn N []).length = 0 := by simp [rootsIn]
        rw [hz]
        split <;> omega
      · intro _
        rfl
  | cons i rest ih =>
      simp only [infosLoop]
      cases hstep : infosStep N s i with
      | error e =>
          have hnot : (infosStep N s i).isOk = false := by
            rw [hstep]; rfl
          constructor
          · intro h; cases h
          · rintro ⟨hball, hroots⟩
            exfalso
            have hok : (infosStep N s i).isOk = true := by
              rw [infosStep_ok_iff]
              refine ⟨hball i (by simp), fun h0 => ?_⟩
              cases hr : s.root with
              | none => rfl
              | some r =>
                  exfalso
                  rw [rootsIn_cons, if_pos h0, hr, if_neg (Option.some_ne_none r)] at hroots
                  simp only [List.length_cons] at hroots
                  omega
            rw [hok] at hnot
            cases hnot
      | ok s1 =>
          rw [ih s1]
          have hok : (infosStep N s i).isOk = true := by rw [hstep]; rfl
          rw [infosStep_ok_iff] at hok
          have hroot1 := infosStep_root N s i s1 hstep
          rw [rootsIn_cons]
          by_cases h0 : N.inDeg i = 0
          · have hrs : s.root = none := hok.2 h0
            have hs1 : s1.root = some i := by rw [hroot1, if_pos ⟨h0, hrs⟩]
            rw [if_pos h0, hrs, hs1, if_neg (Option.some_ne_none i), if_pos rfl]
            simp only [List.length_cons, Nat.add_zero]
            constructor
            · rintro ⟨hball, hlen⟩
              refine ⟨fun v hv => ?_, by omega⟩
              rcases List.mem_cons.mp hv with rfl | hv
              · exact hok.1
              · exact hball v hv
            · rintro ⟨hball, hlen⟩
              exact ⟨fun v hv => hball v (List.mem_cons_of_mem _ hv), by omega⟩
          · have hs1 : s1.root = s.root := by
              rw [hroot1, if_neg (fun hc => h0 hc.1)]
            rw [if_neg h0, hs1]
            constructor
            · rintro ⟨hball, hlen⟩
              refine ⟨fun v hv => ?_, hlen⟩
              rcases List.mem_cons.mp hv with rfl | hv
              · exact hok.1
              · exact hball v hv
            · rintro ⟨hball, hlen⟩
              exact ⟨fun v hv => hball v (List.mem_cons_of_mem _ hv), hlen⟩

theorem infosLoop_root (N : Net) (l : List Nat) (s s1 : Infos)
    (h : infosLoop N l s = .ok s1) :
    s1.root = if s.root = none then l.find? (fun v => N.inDeg v = 0) else s.root := by
  induction l generalizing s with
  | nil =>
      simp only [infosLoop] at h
      cases h
      cases hr : s1.root <;> simp [hr]
  | cons i rest ih =>
      simp only [infosLoop] at h
      cases hstep : infosStep N s i with
      | error e => rw [hstep] at h; cases h
      | ok smid =>
          rw [hstep] at h
          have hmid := ih smid h
          have hroot := infosStep_root N s i smid hstep
          rw [hmid]
          by_cases h0 : N.inDeg i = 0
          · cases hr : s.root with
            | none =>
                have hsm : smid.root = some i := by rw [hroot, hr, if_pos ⟨h0, rfl⟩]
                have hfind : List.find? (fun v => decide (N.inDeg v = 0)) (i :: rest) = some i :=
                  List.find?_cons_of_pos _ (by simp [h0])
                rw [hsm]
                simp [hfind]
            | some r =>
                have hsm : smid.root = some r := by
                  rw [hroot, hr, if_neg (fun hc => by cases hc.2)]
                rw [hsm]
                simp
          · have hsm : smid.root = s.root := by
              rw [hroot, if_neg (fun hc => h0 hc.1)]
            rw [hsm]
            cases hr : s.root with
            | none =>
                have hfind :
                    List.find? (fun v => decide (N.inDeg v = 0)) (i :: rest) =
                      List.find? (fun v => decide (N.inDeg v = 0)) rest :=
                  List.find?_cons_of_neg _ (by simp [h0])
                simp [hfind]
            | some r => simp

theorem mem_eq_of_length_le_one {α : Type} {l : List α} (h : l.length ≤ 1)
    {a b : α} (ha : a ∈ l) (hb : b ∈ l) : a = b := by
  cases l with
  | nil => cases ha
  | cons x xs =>
      cases xs with
      | nil => rw [List.mem_singleton.mp ha, List.mem_singleton.mp hb]
      | cons y ys => simp at h

theorem updateInfos_root (N : Net) (s : Infos) (h : updateInfos N = .ok s) :
    s.root = N.nodes.find? (fun v => N.inDeg v = 0) ∧
      (infosLoop N N.nodes ⟨none, none, [], []⟩).isOk = true := by
  unfold updateInfos at h
  split at h
  · cases h
  · rename_i sl hl
    have hroot : sl.root = N.nodes.find? (fun v => N.inDeg v = 0) := by
      simpa using infosLoop_root N N.nodes _ sl hl
    split at h
    · cases h
    · rename_i r hr
      cases h
      refine ⟨?_, by rw [hl]; rfl⟩
      show sl.root = _
      exact hroot

theorem updateInfos_isOk (N : Net) :
    (updateInfos N).isOk = true ↔
      (infosLoop N N.nodes ⟨none, none, [], []⟩).isOk = true ∧
        (N.nodes.find? (fun v => N.inDeg v = 0)).isSome = true := by
  unfold updateInfos
  split
  · rename_i e hl
    rw [hl]
    constructor
    · intro h; cases h
    · rintro ⟨h, -⟩; cases h
  · rename_i sl hl
    rw [hl]
    have hroot : sl.root = N.nodes.find? (fun v => N.inDeg v = 0) := by
      simpa using infosLoop_root N N.nodes _ sl hl
    rw [← hroot]
    split
    · rename_i hr
      rw [hr]
      constructor
      · intro h; cases h
      · rintro ⟨-, hfind⟩; cases hfind
    · rename_i r hr
      rw [hr]
      constructor
      · intro _; exact ⟨rfl, rfl⟩
      · intro _; rfl

/-- C7: `_update_infos` (the same in both generations) raises a
`DegreeError` exactly when some vertex has in-degree one and out-degree one,
or in-degree and out-degree both above one, or when the number of
in-degree-zero vertices is not exactly one; on a non-raising input it
completes with `root` set to the unique in-degree-zero vertex.  The
embedding returns `Except`, so a raising run produces no partial
classification state. -/
theorem claim_C7_updateInfos_errors (N : Net) :
    ((updateInfos N).isOk = true ↔
      (∀ v ∈ N.nodes,
        ¬((N.inDeg v = 1 ∧ N.outDeg v = 1) ∨ (1 < N.inDeg v ∧ 1 < N.outDeg v))) ∧
        (rootsIn N N.nodes).length = 1) ∧
      (∀ s, updateInfos N = .ok s →
        ∃ r, s.root = some r ∧ r ∈ N.nodes ∧ N.inDeg r = 0 ∧
          ∀ v ∈ N.nodes, N.inDeg v = 0 → v = r) := by
  have hfind_mem : ∀ r, N.nodes.find? (fun v => N.inDeg v = 0) = some r →
      r ∈ rootsIn N N.nodes := by
    intro r hfr
    have h1 := List.find?_some hfr
    have h2 := List.mem_of_find?_eq_some hfr
    simp only [decide_eq_true_eq] at h1
    exact List.mem_filter.mpr ⟨h2, by simp [h1]⟩
  constructor
  · rw [updateInfos_isOk, infosLoop_ok_iff]
    constructor
    · rintro ⟨⟨hball, hlen⟩, hfind⟩
      rw [if_pos rfl] at hlen
      refine ⟨fun v hv hc => ?_, ?_⟩
      · have hb := hball v hv
        rw [← badDegree_eq_true_iff] at hc
        rw [hb] at hc
        cases hc
      · rcases Option.isSome_iff_exists.mp hfind with ⟨r, hfr⟩
        have := hfind_mem r hfr
        have hpos : 0 < (rootsIn N N.nodes).length := List.length_pos_of_mem this
        omega
    · rintro ⟨hball, hlen⟩
      have hfind : (N.nodes.find? (fun v => N.inDeg v = 0)).isSome = true := by
        have : ∃ v ∈ N.nodes, N.inDeg v = 0 := by
          have hne : rootsIn N N.nodes ≠ [] := by
            intro hc
            rw [hc] at hlen
            cases hlen
          rcases List.exists_mem_of_ne_nil _ hne with ⟨r, hr⟩
          have := List.mem_filter.mp hr
          exact ⟨r, this.1, by simpa using this.2⟩
        rcases this with ⟨v, hv, h0⟩
        rw [List.find?_isSome]
        exact ⟨v, hv, by simp [h0]⟩
      refine ⟨⟨fun v hv => ?_, ?_⟩, hfind⟩
      · cases hbb : badDegree N v
        · rfl
        · exact absurd ((badDegree_eq_true_iff N v).mp hbb) (hball v hv)
      · rw [if_pos rfl, hlen]
  · intro s hs
    rcases updateInfos_root N s hs with ⟨hroot, hloop⟩
    rw [infosLoop_ok_iff] at hloop
    rcases hloop with ⟨-, hlen⟩
    rw [if_pos rfl] at hlen
    cases hr : s.root with
    | none =>
        exfalso
        rw [hr] at hroot
        have hok : (updateInfos N).isOk = true := by rw [hs]; rfl
        rw [updateInfos_isOk] at hok
        rw [← hroot] at hok
        cases hok.2
    | some r =>
        rw [hr] at hroot
        refine ⟨r, rfl, List.mem_of_find?_eq_some hroot.symm, ?_, ?_⟩
        · have := List.find?_some hroot.symm
          simpa using this
        · intro v hv h0
          have hvmem : v ∈ rootsIn N N.nodes :=
            List.mem_filter.mpr ⟨hv, by simp [h0]⟩
          have hrmem : r ∈ rootsIn N N.nodes := hfind_mem r hroot.symm
          exact mem_eq_of_length_le_one (by omega) hvmem hrmem

/-- Concrete input for the C7 witness: a rooted star with two leaves. -/
def c7Net : Net := ⟨[0, 1, 2], [(0, 1), (0, 2)]⟩

theorem claim_C7_updateInfos_errors_witness :
    ∃ r, (Infos.mk (some 0) (some 0) [] [1, 2]).root = some r ∧ r ∈ c7Net.nodes ∧
      c7Net.inDeg r = 0 ∧ ∀ v ∈ c7Net.nodes, c7Net.inDeg v = 0 → v = r :=
  (claim_C7_updateInfos_errors c7Net).2 ⟨some 0, some 0, [], [1, 2]⟩ rfl

/-! ## Claim C2: the galled-tree property dereferences a missing attribute

`GalledTreeProp.check` is, in both generations, the single statement
`self.set(self.network.compute_level() == 1)`.  No attribute named
`compute_level` exists on either `PhyloNetwork` class: the level is exposed
only through `self.properties['lvl']`, backed by `max_per_block`.  Python
resolves `self.network.compute_level` through the instance and class
attribute tables, so the call raises `AttributeError` before any comparison
with the level happens.  The tables below are transcribed from the class
bodies, the `__init__` assignments and the method definitions of the two
source files. -/

/-- Every attribute name of `Phylo.py`: class-level fields, the extra
`__init__` field, and the methods of `PhyloNetwork`. -/
def phyloNetworkAttrs : List String :=
  ["verbose", "N", "root", "reticulations", "leaves", "dominators",
   "stability", "lowest_stable", "regular", "properties",
   "log", "node_type", "is_reticulation", "is_stable", "contract_edge",
   "shortcut_over", "subdivide", "_contract", "_update_stable",
   "_update_infos", "open", "create_regular_tree", "create_binary",
   "create_random", "get_nodes", "count_nodes", "max_per_block", "write_dot"]

/-- Every attribute name of `RecoPhyNC.py`: class-level fields, the extra
`__init__` field, and the methods of `PhyloNetwork`. -/
def recoPhyloNetworkAttrs : List String :=
  ["verbose", "N", "root", "reticulations", "leaves", "stability_tree",
   "stability", "lowest_stable", "regular", "properties",
   "log", "node_type", "is_reticulation", "is_stable", "contract_edge",
   "shortcut_over", "subdivide", "_contract", "_update_stable",
   "_update_infos", "open", "create_regular_tree", "create_binary",
   "create_random", "get_nodes", "count_nodes", "max_per_block", "write_dot"]

/-- The attribute that `GalledTreeProp.check` dereferences on its network in
both generations before it can compare anything with 1. -/
def galledTreeCheckCallee : String := "compute_level"

/-- C2: calling `get()` on the galled-tree property cannot return
`lvl == 1`: its `check()` dereferences `self.network.compute_level`, a name
missing from both `PhyloNetwork` attribute tables, so the call raises
`AttributeError` on every network instead of producing a value. -/
theorem claim_C2_galledTree_missing_compute_level :
    galledTreeCheckCallee ∉ phyloNetworkAttrs ∧
      galledTreeCheckCallee ∉ recoPhyloNetworkAttrs := by
  decide

/-! ## Claims C6: the implication closure of `NetworkProperty.set`

`set(v)` stores the value when it differs from the current one and then
recursively sets the positive implications (on `True`) or the negative
implications (on `False`).  The store is embedded as an association list
from short code to boolean; an absent code is python `None`. -/

/-- `network_types` from `properties/common.py`. -/
def networkTypes : List String :=
  ["tc", "ntc", "gs", "ts", "rv", "cv", "cp", "ns", "tb"]

/-- `positive_implications` with the `.get(key, [])` access used by `set`. -/
def positiveImplications : String → List String
  | "tc" => ["ntc", "ns"]
  | "ntc" => ["gs"]
  | "gs" => ["ts", "rv"]
  | "rv" => ["cv"]
  | "ns" => ["cv"]
  | "gt" => ["rv"]
  | _ => []

/-- The keys of the `positive_implications` dict, in insertion order. -/
def positiveImplicationKeys : List String := ["tc", "ntc", "gs", "rv", "ns", "gt"]

/-- `negative_implications`, derived from the positive table exactly as in
`properties/common.py`: for a boolean short code `x`, the codes whose
positive list contains `x`. -/
def negativeImplications (x : String) : List String :=
  if x ∈ networkTypes then
    positiveImplicationKeys.filter (fun y => x ∈ positiveImplications y)
  else []

/-- A property store: short code to value, absent meaning python `None`. -/
abbrev PState := List (String × Bool)

/-- Lookup in the store. -/
def pLookup : PState → String → Option Bool
  | [], _ => none
  | (k, v) :: rest, key => if k = key then some v else pLookup rest key

/-- Store a value, replacing an existing entry for the code. -/
def pStore : PState → String → Bool → PState
  | [], key, val => [(key, val)]
  | (k, v) :: rest, key, val =>
      if k = key then (k, val) :: rest else (k, v) :: pStore rest key val

/-- `NetworkProperty.set`: no-op when the stored value already equals the
argument, otherwise store it and recurse through the implication table.  The
recursion is bounded by fuel; the implication tables form a finite dag of
depth below 20, so fuel 20 is never exhausted on them. -/
def propSet (fuel : Nat) (s : PState) (short : String) (v : Bool) : PState :=
  match fuel with
  | 0 => s
  | fuel + 1 =>
      if pLookup s short = some v then s
      else
        let s1 := pStore s short v
        if v then
          (positiveImplications short).foldl (fun t impl => propSet fuel t impl true) s1
        else
          (negativeImplications short).foldl (fun t impl => propSet fuel t impl false) s1

/-- C6: starting from a freshly constructed network (every property value
`None`, which is how `set` is reached on a new network — the store does not
depend on the graph), setting the tree-child code to true recursively sets
`ntc`, `ns`, `gs`, `ts`, `rv` and `cv` to true through the positive
implication table, and running the same `set` a second time returns the
store unchanged, entry for entry. -/
theorem claim_C6_treeChild_closure_idempotent :
    (∀ c ∈ ["ntc", "ns", "gs", "ts", "rv", "cv"],
        pLookup (propSet 20 [] "tc" true) c = some true) ∧
      propSet 20 (propSet 20 [] "tc" true) "tc" true = propSet 20 [] "tc" true := by
  decide

/-! ## Claim C5: contraction of trivial vertices

Both generations remove every vertex of in- and out-degree one, replacing
it by an edge from its predecessor to its successor.  `Phylo.py` makes a
single pass over a snapshot of the node list; `RecoPhyNC.py` keeps a
worklist and re-enqueues the two neighbours of a contracted vertex. -/

namespace Net

/-- `networkx` `add_node` as performed implicitly by `add_edge`. -/
def addNode (N : Net) (v : Nat) : Net :=
  if v ∈ N.nodes then N else { N with nodes := N.nodes ++ [v] }

/-- `networkx` `add_edge`: register missing endpoints, add the edge if it
is not already present (a `DiGraph` has no parallel edges). -/
def addEdge (N : Net) (u w : Nat) : Net :=
  let N1 := (N.addNode u).addNode w
  if (u, w) ∈ N1.edges then N1 else { N1 with edges := N1.edges ++ [(u, w)] }

/-- `networkx` `remove_node`: drop the vertex and every incident edge. -/
def removeNode (N : Net) (v : Nat) : Net :=
  { nodes := N.nodes.erase v,
    edges := N.edges.filter (fun e => decide (e.1 ≠ v ∧ e.2 ≠ v)) }

end Net

/-- The shared contraction body: `u = next(predecessors(v))`,
`w = next(successors(v))`, `add_edge(u, w)`, `remove_node(v)`.  The
fallthrough branch is unreachable when `v` has in- and out-degree one. -/
def contractAt (g : Net) (v : Nat) : Net :=
  match g.preds v, g.succs v with
  | u :: _, w :: _ => (g.addEdge u w).removeNode v
  | _, _ => g

/-- `Phylo.py` `_contract`: one pass over a snapshot of the node list,
contracting each vertex that is trivial at the moment it is visited. -/
def phyloContract (N : Net) : Net :=
  N.nodes.foldl
    (fun g v => if g.inDeg v = 1 ∧ g.outDeg v = 1 then contractAt g v else g) N

/-- Insertion into a python set. -/
def setInsert (X : List Nat) (v : Nat) : List Nat :=
  if v ∈ X then X else X ++ [v]

/-- `RecoPhyNC.py` `_contract`: pop a vertex from the worklist, contract it
when trivial, and re-enqueue its two former neighbours.  A popped vertex no
longer in the graph is skipped (in the source the degree query of such a
vertex would raise inside `networkx`; it can only be popped after a
contraction created a self-loop, which needs a cyclic input).  The fuel
only bounds the recursion; `recoContract` supplies enough for any run. -/
def recoContractLoop : Nat → Net → List Nat → Net
  | 0, g, _ => g
  | _ + 1, g, [] => g
  | fuel + 1, g, v :: X =>
      if v ∈ g.nodes ∧ g.inDeg v = 1 ∧ g.outDeg v = 1 then
        recoContractLoop fuel (contractAt g v)
          (setInsert (setInsert X ((g.preds v).headD 0)) ((g.succs v).headD 0))
      else recoContractLoop fuel g X

/-- `RecoPhyNC.py` `_contract` with the worklist seeded by all nodes. -/
def recoContract (g : Net) : Net :=
  recoContractLoop (3 * g.nodes.length + 1) g g.nodes

/-- Concrete input refuting the fixed-point claim for the single-pass
contraction: 0 -> 1, 1 -> 2, 2 -> 3, 1 -> 3, 3 -> 4.  Contracting vertex 2
merges the created edge 1 -> 3 with the existing one, so vertex 1 loses an
out-edge and becomes trivial after its own visit; contracting 3 afterwards
leaves 1 trivial at the end of the pass. -/
def c5Net : Net := ⟨[0, 1, 2, 3, 4], [(0, 1), (1, 2), (2, 3), (1, 3), (3, 4)]⟩

/-- C5 as stated is false for the single-pass `_contract` of `Phylo.py`:
on `c5Net` the pass terminates with vertex 1 still of in- and out-degree
one, and a second pass changes the graph again. -/
theorem claim_C5_counterexample :
    (1 ∈ (phyloContract c5Net).nodes ∧ (phyloContract c5Net).inDeg 1 = 1 ∧
        (phyloContract c5Net).outDeg 1 = 1) ∧
      phyloContract (phyloContract c5Net) ≠ phyloContract c5Net := by
  decide

/-! Supporting lemmas about degrees under contraction. -/

theorem inDeg_eq (N : Net) (v : Nat) :
    N.inDeg v = (N.edges.filter (fun e => decide (e.2 = v))).length := by
  unfold Net.inDeg Net.preds
  rw [List.length_map]

theorem outDeg_eq (N : Net) (v : Nat) :
    N.outDeg v = (N.edges.filter (fun e => decide (e.1 = v))).length := by
  unfold Net.outDeg Net.succs
  rw [List.length_map]

theorem map_eq_singleton {α β : Type} {f : α → β} {l : List α} {b : β}
    (h : l.map f = [b]) : ∃ a, l = [a] ∧ f a = b := by
  cases l with
  | nil => cases h
  | cons x xs =>
      cases xs with
      | nil =>
          refine ⟨x, rfl, ?_⟩
          simpa using h
      | cons y ys => simp at h

theorem preds_singleton (g : Net) (v : Nat) (h : g.inDeg v = 1) :
    ∃ u, g.preds v = [u] ∧ (u, v) ∈ g.edges := by
  unfold Net.inDeg at h
  rcases List.length_eq_one.mp h with ⟨u, hu⟩
  refine ⟨u, hu, ?_⟩
  unfold Net.preds at hu
  rcases map_eq_singleton hu with ⟨e, he, hf⟩
  have hmem : e ∈ g.edges.filter (fun e => decide (e.2 = v)) := by
    rw [he]; simp
  have h1 := List.mem_of_mem_filter hmem
  have h2 := List.of_mem_filter hmem
  simp only [decide_eq_true_eq] at h2
  obtain ⟨a, b⟩ := e
  simp only at hf h2
  rw [← hf, ← h2]
  exact h1

theorem succs_singleton (g : Net) (v : Nat) (h : g.outDeg v = 1) :
    ∃ w, g.succs v = [w] ∧ (v, w) ∈ g.edges := by
  unfold Net.outDeg at h
  rcases List.length_eq_one.mp h with ⟨w, hw⟩
  refine ⟨w, hw, ?_⟩
  unfold Net.succs at hw
  rcases map_eq_singleton hw with ⟨e, he, hf⟩
  have hmem : e ∈ g.edges.filter (fun e => decide (e.1 = v)) := by
    rw [he]; simp
  have h1 := List.mem_of_mem_filter hmem
  have h2 := List.of_mem_filter hmem
  simp only [decide_eq_true_eq] at h2
  obtain ⟨a, b⟩ := e
  simp only at hf h2
  rw [← hf, ← h2]
  exact h1

theorem out_edge_unique (g : Net) (v w : Nat) (hs : g.succs v = [w]) :
    ∀ e ∈ g.edges, e.1 = v → e = (v, w) := by
  intro e he hfst
  have hmem : e ∈ g.edges.filter (fun e => decide (e.1 = v)) :=
    List.mem_filter.mpr ⟨he, by simp [hfst]⟩
  unfold Net.succs at hs
  rcases map_eq_singleton hs with ⟨e0, he0, hsnd⟩
  rw [he0] at hmem
  have : e = e0 := List.mem_singleton.mp hmem
  subst this
  obtain ⟨a, b⟩ := e
  simp only at hfst hsnd
  rw [hfst, hsnd]

theorem in_edge_unique (g : Net) (v u : Nat) (hp : g.preds v = [u]) :
    ∀ e ∈ g.edges, e.2 = v → e = (u, v) := by
  intro e he hsnd
  have hmem : e ∈ g.edges.filter (fun e => decide (e.2 = v)) :=
    List.mem_filter.mpr ⟨he, by simp [hsnd]⟩
  unfold Net.preds at hp
  rcases map_eq_singleton hp with ⟨e0, he0, hfst⟩
  rw [he0] at hmem
  have : e = e0 := List.mem_singleton.mp hmem
  subst this
  obtain ⟨a, b⟩ := e
  simp only at hfst hsnd
  rw [hfst, hsnd]

@[simp] theorem addNode_edges (N : Net) (v : Nat) : (N.addNode v).edges = N.edges := by
  unfold Net.addNode; split <;> rfl

theorem addNode_of_mem (N : Net) (v : Nat) (h : v ∈ N.nodes) : N.addNode v = N := by
  unfold Net.addNode; rw [if_pos h]

theorem addEdge_edges (N : Net) (u w : Nat) :
    (N.addEdge u w).edges =
      if (u, w) ∈ N.edges then N.edges else N.edges ++ [(u, w)] := by
  simp only [Net.addEdge, addNode_edges]
  split <;> simp [addNode_edges]

theorem addEdge_nodes (N : Net) (u w : Nat) (hu : u ∈ N.nodes) (hw : w ∈ N.nodes) :
    (N.addEdge u w).nodes = N.nodes := by
  simp only [Net.addEdge]
  rw [addNode_of_mem N u hu, addNode_of_mem N w hw]
  split <;> rfl

theorem mem_addEdge {N : Net} {u w : Nat} {e : Nat × Nat}
    (h : e ∈ (N.addEdge u w).edges) : e ∈ N.edges ∨ e = (u, w) := by
  rw [addEdge_edges] at h
  split at h
  · exact Or.inl h
  · rcases List.mem_append.mp h with h | h
    · exact Or.inl h
    · exact Or.inr (List.mem_singleton.mp h)

theorem length_filter_of_imp {α : Type} {l : List α} {p q : α → Bool}
    (h : ∀ e ∈ l, p e = true → q e = true) :
    ((l.filter q).filter p).length = (l.filter p).length := by
  induction l with
  | nil => rfl
  | cons e rest ih =>
      have hrest : ∀ x ∈ rest, p x = true → q x = true := fun x hx => h x (by simp [hx])
      by_cases hq : q e = true
      · rw [List.filter_cons_of_pos hq]
        by_cases hp : p e = true
        · rw [List.filter_cons_of_pos hp, List.filter_cons_of_pos hp]
          simp only [List.length_cons]
          rw [ih hrest]
        · rw [List.filter_cons_of_neg (by simpa using hp),
            List.filter_cons_of_neg (by simpa using hp)]
          exact ih hrest
      · have hp : p e = false := by
          cases hpe : p e
          · rfl
          · exact absurd (h e (by simp) hpe) hq
        rw [List.filter_cons_of_neg (by simpa using hq),
          List.filter_cons_of_neg (by simp [hp])]
        exact ih hrest

theorem removeNode_inDeg (g : Net) (v x : Nat) (hx : x ≠ v)
    (hnoedge : ∀ e ∈ g.edges, e.2 = x → e.1 ≠ v) :
    (g.removeNode v).inDeg x = g.inDeg x := by
  rw [inDeg_eq, inDeg_eq]
  show ((g.edges.filter _).filter _).length = _
  apply length_filter_of_imp
  intro e he hp
  simp only [decide_eq_true_eq] at hp ⊢
  exact ⟨hnoedge e he hp, by rw [hp]; exact hx⟩

theorem removeNode_outDeg (g : Net) (v x : Nat) (hx : x ≠ v)
    (hnoedge : ∀ e ∈ g.edges, e.1 = x → e.2 ≠ v) :
    (g.removeNode v).outDeg x = g.outDeg x := by
  rw [outDeg_eq, outDeg_eq]
  show ((g.edges.filter _).filter _).length = _
  apply length_filter_of_imp
  intro e he hp
  simp only [decide_eq_true_eq] at hp ⊢
  exact ⟨by rw [hp]; exact hx, hnoedge e he hp⟩

theorem removeNode_inDeg_self (g : Net) (v : Nat) : (g.removeNode v).inDeg v = 0 := by
  rw [inDeg_eq]
  rw [List.length_eq_zero]
  rw [List.filter_eq_nil_iff]
  intro e he
  have h2 := List.of_mem_filter he
  simp only [decide_eq_true_eq] at h2 ⊢
  exact h2.2

theorem addEdge_inDeg (g : Net) (u w x : Nat) (hx : x ≠ w) :
    (g.addEdge u w).inDeg x = g.inDeg x := by
  rw [inDeg_eq, inDeg_eq, addEdge_edges]
  split
  · rfl
  · rw [List.filter_append]
    have : List.filter (fun e => decide (e.2 = x)) [(u, w)] = [] := by
      simp [Ne.symm hx]
    rw [this, List.append_nil]

theorem addEdge_outDeg (g : Net) (u w x : Nat) (hx : x ≠ u) :
    (g.addEdge u w).outDeg x = g.outDeg x := by
  rw [outDeg_eq, outDeg_eq, addEdge_edges]
  split
  · rfl
  · rw [List.filter_append]
    have : List.filter (fun e => decide (e.1 = x)) [(u, w)] = [] := by
      simp [Ne.symm hx]
    rw [this, List.append_nil]

theorem contractAt_eq (g : Net) (v u w : Nat) (hp : g.preds v = [u]) (hs : g.succs v = [w]) :
    contractAt g v = (g.addEdge u w).removeNode v := by
  unfold contractAt
  rw [hp, hs]

theorem contractAt_nodes (g : Net) (v u w : Nat)
    (hp : g.preds v = [u]) (hs : g.succs v = [w])
    (hu : u ∈ g.nodes) (hw : w ∈ g.nodes) :
    (contractAt g v).nodes = g.nodes.erase v := by
  rw [contractAt_eq g v u w hp hs]
  show ((g.addEdge u w).nodes).erase v = _
  rw [addEdge_nodes g u w hu hw]

theorem contractAt_inDeg (g : Net) (v u w x : Nat)
    (hp : g.preds v = [u]) (hs : g.succs v = [w])
    (hxv : x ≠ v) (hxw : x ≠ w) :
    (contractAt g v).inDeg x = g.inDeg x := by
  rw [contractAt_eq g v u w hp hs]
  rw [removeNode_inDeg _ v x hxv]
  · exact addEdge_inDeg g u w x hxw
  · intro e he hsnd hfst
    rcases mem_addEdge he with he' | rfl
    · have heq := out_edge_unique g v w hs e he' hfst
      rw [heq] at hsnd
      exact hxw hsnd.symm
    · exact hxw hsnd.symm

theorem contractAt_outDeg (g : Net) (v u w x : Nat)
    (hp : g.preds v = [u]) (hs : g.succs v = [w])
    (hxv : x ≠ v) (hxu : x ≠ u) :
    (contractAt g v).outDeg x = g.outDeg x := by
  rw [contractAt_eq g v u w hp hs]
  rw [removeNode_outDeg _ v x hxv]
  · exact addEdge_outDeg g u w x hxu
  · intro e he hfst hsnd
    rcases mem_addEdge he with he' | rfl
    · have heq := in_edge_unique g v u hp e he' hsnd
      rw [heq] at hfst
      exact hxu hfst.symm
    · exact hxu hfst.symm

theorem contractAt_inDeg_self (g : Net) (v u w : Nat)
    (hp : g.preds v = [u]) (hs : g.succs v = [w]) :
    (contractAt g v).inDeg v = 0 := by
  rw [contractAt_eq g v u w hp hs]
  exact removeNode_inDeg_self _ v

theorem contractAt_closed (g : Net) (v u w : Nat)
    (hp : g.preds v = [u]) (hs : g.succs v = [w])
    (hu : u ∈ g.nodes) (hw : w ∈ g.nodes)
    (hcl : ∀ e ∈ g.edges, e.1 ∈ g.nodes ∧ e.2 ∈ g.nodes) :
    ∀ e ∈ (contractAt g v).edges,
      e.1 ∈ (contractAt g v).nodes ∧ e.2 ∈ (contractAt g v).nodes := by
  intro e he
  rw [contractAt_nodes g v u w hp hs hu hw]
  rw [contractAt_eq g v u w hp hs] at he
  have hkeep := List.of_mem_filter he
  simp only [decide_eq_true_eq] at hkeep
  have hmem := List.mem_of_mem_filter he
  rcases mem_addEdge hmem with he' | rfl
  · exact ⟨List.mem_erase_of_ne hkeep.1 |>.mpr (hcl e he').1,
      List.mem_erase_of_ne hkeep.2 |>.mpr (hcl e he').2⟩
  · exact ⟨List.mem_erase_of_ne hkeep.1 |>.mpr hu,
      List.mem_erase_of_ne hkeep.2 |>.mpr hw⟩

theorem mem_setInsert_self (X : List Nat) (v : Nat) : v ∈ setInsert X v := by
  unfold setInsert
  split
  · assumption
  · simp

theorem mem_setInsert_of_mem (X : List Nat) (v : Nat) {x : Nat} (h : x ∈ X) :
    x ∈ setInsert X v := by
  unfold setInsert
  split
  · exact h
  · simp [h]

theorem setInsert_length (X : List Nat) (v : Nat) :
    (setInsert X v).length ≤ X.length + 1 := by
  unfold setInsert
  split
  · omega
  · simp

theorem recoContractLoop_fixpoint :
    ∀ (fuel : Nat) (g : Net) (X : List Nat),
      2 * g.nodes.length + X.length < fuel →
      (∀ e ∈ g.edges, e.1 ∈ g.nodes ∧ e.2 ∈ g.nodes) →
      (∀ x ∈ g.nodes, g.inDeg x = 1 → g.outDeg x = 1 → x ∈ X) →
      ∀ x ∈ (recoContractLoop fuel g X).nodes,
        ¬((recoContractLoop fuel g X).inDeg x = 1 ∧
            (recoContractLoop fuel g X).outDeg x = 1) := by
  intro fuel
  induction fuel with
  | zero =>
      intro g X hf
      exact absurd hf (Nat.not_lt_zero _)
  | succ fuel ih =>
      intro g X hf hcl hX
      cases X with
      | nil =>
          simp only [recoContractLoop]
          rintro x hx ⟨h1, h2⟩
          exact absurd (hX x hx h1 h2) (List.not_mem_nil x)
      | cons v X =>
          simp only [recoContractLoop]
          by_cases hg : v ∈ g.nodes ∧ g.inDeg v = 1 ∧ g.outDeg v = 1
          · rw [if_pos hg]
            obtain ⟨hvmem, h1, h2⟩ := hg
            obtain ⟨u, hp, hpe⟩ := preds_singleton g v h1
            obtain ⟨w, hs, hse⟩ := succs_singleton g v h2
            have hu : u ∈ g.nodes := (hcl _ hpe).1
            have hw : w ∈ g.nodes := (hcl _ hse).2
            have hnodes := contractAt_nodes g v u w hp hs hu hw
            have hpu : (g.preds v).headD 0 = u := by rw [hp]; rfl
            have hsw : (g.succs v).headD 0 = w := by rw [hs]; rfl
            rw [hpu, hsw]
            apply ih
            · rw [hnodes]
              have hlen := List.length_erase_of_mem hvmem
              have hi1 := setInsert_length X u
              have hi2 := setInsert_length (setInsert X u) w
              simp only [List.length_cons] at hf
              have hpos : 0 < g.nodes.length := List.length_pos_of_mem hvmem
              omega
            · exact contractAt_closed g v u w hp hs hu hw hcl
            · intro x hx hx1 hx2
              rw [hnodes] at hx
              have hxg : x ∈ g.nodes := List.mem_of_mem_erase hx
              by_cases hxv : x = v
              · exfalso
                rw [hxv] at hx1
                rw [contractAt_inDeg_self g v u w hp hs] at hx1
                cases hx1
              · by_cases hxu : x = u
                · rw [hxu]
                  exact mem_setInsert_of_mem _ w (mem_setInsert_self X u)
                · by_cases hxw : x = w
                  · rw [hxw]
                    exact mem_setInsert_self _ w
                  · rw [contractAt_inDeg g v u w x hp hs hxv hxw] at hx1
                    rw [contractAt_outDeg g v u w x hp hs hxv hxu] at hx2
                    have hmem := hX x hxg hx1 hx2
                    rcases List.mem_cons.mp hmem with h | h
                    · exact absurd h hxv
                    · exact mem_setInsert_of_mem _ w (mem_setInsert_of_mem _ u h)
          · rw [if_neg hg]
            apply ih
            · simp only [List.length_cons] at hf
              omega
            · exact hcl
            · intro x hx hx1 hx2
              have hmem := hX x hx hx1 hx2
              rcases List.mem_cons.mp hmem with h | h
              · subst h
                exact absurd ⟨hx, hx1, hx2⟩ hg
              · exact h

theorem recoContractLoop_clean (fuel : Nat) (g : Net) (X : List Nat)
    (hclean : ∀ x ∈ g.nodes, ¬(g.inDeg x = 1 ∧ g.outDeg x = 1)) :
    recoContractLoop fuel g X = g := by
  induction fuel generalizing X with
  | zero => rfl
  | succ fuel ih =>
      cases X with
      | nil => rfl
      | cons v X =>
          simp only [recoContractLoop]
          rw [if_neg]
          · exact ih X
          · rintro ⟨hv, h1, h2⟩
            exact hclean v hv ⟨h1, h2⟩

/-- C5 amended: the claim holds for the worklist `_contract` of
`RecoPhyNC.py` (on any input graph whose edge endpoints are its nodes, as
`networkx` guarantees): after it, no vertex has in- and out-degree one,
a second application leaves the graph unchanged, and an input without
trivial vertices is returned unchanged.  The single-pass `_contract` of
`Phylo.py` violates the claim (see the counterexample). -/
theorem claim_C5_amended_worklist_contract (g : Net)
    (hcl : ∀ e ∈ g.edges, e.1 ∈ g.nodes ∧ e.2 ∈ g.nodes) :
    (∀ x ∈ (recoContract g).nodes,
        ¬((recoContract g).inDeg x = 1 ∧ (recoContract g).outDeg x = 1)) ∧
      recoContract (recoContract g) = recoContract g ∧
      (∀ h : Net, (∀ x ∈ h.nodes, ¬(h.inDeg x = 1 ∧ h.outDeg x = 1)) →
        recoContract h = h) := by
  have hfix : ∀ x ∈ (recoContract g).nodes,
      ¬((recoContract g).inDeg x = 1 ∧ (recoContract g).outDeg x = 1) := by
    apply recoContractLoop_fixpoint
    · omega
    · exact hcl
    · intro x hx _ _
      exact hx
  refine ⟨hfix, ?_, ?_⟩
  · exact recoContractLoop_clean _ _ _ hfix
  · intro h hclean
    exact recoContractLoop_clean _ _ _ hclean

theorem claim_C5_amended_worklist_contract_witness :
    recoContract (recoContract c5Net) = recoContract c5Net :=
  (claim_C5_amended_worklist_contract c5Net (by decide)).2.1

/-! ## The two `_update_stable` algorithms

Association lists model the python dicts: `aGet` is `defaultdict` access
with a default, `aHas` is the `in` test, `aSet` assignment, `aDel` the
`del` statement.  Keys are kept in first-assignment order. -/

def aGet {β : Type} (d : β) : List (Nat × β) → Nat → β
  | [], _ => d
  | (k, v) :: rest, key => if k = key then v else aGet d rest key

def aHas {β : Type} : List (Nat × β) → Nat → Bool
  | [], _ => false
  | (k, _) :: rest, key => k = key || aHas rest key

def aSet {β : Type} : List (Nat × β) → Nat → β → List (Nat × β)
  | [], key, val => [(key, val)]
  | (k, v) :: rest, key, val =>
      if k = key then (k, val) :: rest else (k, v) :: aSet rest key val

def aDel {β : Type} : List (Nat × β) → Nat → List (Nat × β)
  | [], _ => []
  | (k, v) :: rest, key => if k = key then rest else (k, v) :: aDel rest key

def aFind {β : Type} : List (Nat × β) → Nat → Option β
  | [], _ => none
  | (k, v) :: rest, key => if k = key then some v else aFind rest key

/-- The state of `RecoPhyNC.py` `_update_stable`: the stability dict, the
stability tree edge list, the FIFO frontier, the `spread` counters, the
`reach` sets (as ordered lists) and the processed-children counters. -/
structure StabState where
  stability : List (Nat × Nat)
  stabTree : List (Nat × Nat)
  queue : List Nat
  spread : List (Nat × Int)
  reach : List (Nat × List Nat)
  childsSeen : List (Nat × Nat)
  deriving Repr, DecidableEq

/-- Inner body of the reach-propagation loop: one `j` from
`reach[v].union({v})` pushed into `reach[p]`, counting its spread. -/
def stabPropJ (st : StabState) (p j : Nat) : StabState :=
  if j ∈ aGet [] st.reach p then st
  else { st with spread := aSet st.spread j (aGet 0 st.spread j + 1),
                 reach := aSet st.reach p (aGet [] st.reach p ++ [j]) }

/-- First parent loop of `_update_stable`: count the processed child and
propagate everything `v` reaches (and `v` itself) into `reach[p]`. -/
def stabPropP (v : Nat) (st : StabState) (p : Nat) : StabState :=
  let st1 := { st with childsSeen := aSet st.childsSeen p (aGet 0 st.childsSeen p + 1) }
  let rv := aGet [] st1.reach v
  let js := if v ∈ rv then rv else rv ++ [v]
  js.foldl (fun s j => stabPropJ s p j) st1

/-- Claim one spread-one vertex `x` for `p`: record the stability-tree
edge, copy the stability value when `x` already has one, and retire `x`
from `reach[p]` and from the spread counters. -/
def stabClaimX (st : StabState) (p x : Nat) : StabState :=
  let st1 := { st with stabTree :=
      if (p, x) ∈ st.stabTree then st.stabTree else st.stabTree ++ [(p, x)] }
  let st2 := if aHas st1.stability x then
      { st1 with stability := aSet st1.stability p (aGet 0 st1.stability x) }
    else st1
  { st2 with reach := aSet st2.reach p ((aGet [] st2.reach p).erase x),
             spread := aDel st2.spread x }

/-- Second parent loop of `_update_stable`: when all of `p`'s children have
been processed, enqueue `p` and claim every vertex it reaches whose spread
is one. -/
def stabClaimP (N : Net) (st : StabState) (p : Nat) : StabState :=
  if aGet 0 st.childsSeen p = (N.outDeg p : Int) then
    let st1 := { st with queue := st.queue ++ [p] }
    let pstable := (aGet [] st1.reach p).filter (fun i => aGet 0 st1.spread i = 1)
    pstable.foldl (fun s x => stabClaimX s p x) st1
  else st

/-- One pop of the frontier in `RecoPhyNC.py` `_update_stable`: decrement
the spread of everything `v` reaches, propagate to the parents, enqueue
completed parents claiming their stable vertices, and forget `reach[v]`. -/
def stabStep (N : Net) (st : StabState) (v : Nat) : StabState :=
  let sp1 := (aGet [] st.reach v).foldl (fun sp j => aSet sp j (aGet 0 sp j - 1)) st.spread
  let st1 := { st with spread := sp1 }
  let st2 := (N.preds v).foldl (fun s p => stabPropP v s p) st1
  let st3 := (N.preds v).foldl (fun s p => stabClaimP N s p) st2
  { st3 with reach := aDel st3.reach v }

/-- The `while not X.empty()` loop, FIFO order, bounded by fuel. -/
def stabLoop (N : Net) : Nat → StabState → StabState
  | 0, st => st
  | fuel + 1, st =>
      match st.queue with
      | [] => st
      | v :: rest => stabLoop N fuel (stabStep N { st with queue := rest } v)

/-- The initial state: the stability dict seeded with `(parent(l), l)` for
every leaf `l` (one arbitrary parent when a leaf has several — the
embedding takes the first), and the frontier holding all leaves. -/
def stabInit (N : Net) (leaves : List Nat) : StabState :=
  { stability := leaves.foldl (fun st l => aSet st ((N.preds l).headD 0) l) [],
    stabTree := [],
    queue := leaves,
    spread := [],
    reach := [],
    childsSeen := [] }

/-- `RecoPhyNC.py` `_update_stable` run to completion (the fuel exceeds the
number of pops any run can make: every vertex is enqueued at most once). -/
def recoUpdateStable (N : Net) (leaves : List Nat) : StabState :=
  stabLoop N (leaves.length + N.nodes.length + 1) (stabInit N leaves)

/-- `is_stable(v)` against a stability dict: leaves (in-degree one,
out-degree zero) are stable; otherwise `stability.get(v, False)` is truthy
exactly when the key is present, since vertex identifiers parsed from the
input file are nonempty strings. -/
def isStableIn (N : Net) (stab : List (Nat × Nat)) (v : Nat) : Bool :=
  if N.isLeafNode v then true else aHas stab v

/-! `Phylo.py` `_update_stable`: immediate dominators and the worklist that
walks every leaf up its dominator chain. -/

/-- All directed walks from `r` to `x` with at most `fuel` edges, each as a
vertex list.  On the acyclic graphs the tool accepts, `fuel = |nodes|`
covers every walk. -/
def walksTo (N : Net) (r : Nat) : Nat → Nat → List (List Nat)
  | 0, x => if x = r then [[r]] else []
  | fuel + 1, x =>
      (if x = r then [[r]] else []) ++
        ((N.preds x).map (fun p => (walksTo N r fuel p).map (fun w => w ++ [x]))).flatten

/-- `w` dominates `x` from root `r`: every walk from the root to `x`
passes through `w` (standard dominator semantics, spec section 3). -/
def DominatesB (N : Net) (r w x : Nat) : Bool :=
  (walksTo N r N.nodes.length x).all (fun p => decide (w ∈ p))

/-- Modelled from the spec: the dominators of `x` among the nodes. -/
def dominatorsOf (N : Net) (r x : Nat) : List Nat :=
  N.nodes.filter (fun w => DominatesB N r w x)

/-- Modelled from the spec: the immediate-dominator map that
`networkx.immediate_dominators(N, root)` returns — the root maps to
itself, and every other vertex to its lowest strict dominator (the strict
dominator that every other strict dominator dominates). -/
def idomOf (N : Net) (r : Nat) (x : Nat) : Nat :=
  if x = r then r
  else
    let doms := (dominatorsOf N r x).filter (fun w => w ≠ x)
    (doms.filter (fun d => doms.all (fun w => DominatesB N r w d))).headD r

/-- `w` is an iterated-`idom` ancestor of `x` within `fuel` steps. -/
def idomAncB (idom : Nat → Nat) : Nat → Nat → Nat → Bool
  | 0, w, x => decide (w = x)
  | fuel + 1, w, x => decide (w = x) || idomAncB idom fuel w (idom x)

/-- The worklist of `Phylo.py` `_update_stable`: pop a vertex `u` (python
pops from the end of the list; the embedding keeps the stack reversed, so
the head is the python tail), look up `v = dominators[u]`, and when `v` has
no stability value yet, give it one (`u`) and push it. -/
def phyloChainLoop (idom : Nat → Nat) :
    Nat → List (Nat × Nat) × List Nat → List (Nat × Nat) × List Nat
  | 0, s => s
  | _ + 1, (stab, []) => (stab, [])
  | fuel + 1, (stab, u :: X) =>
      if aHas stab (idom u) then phyloChainLoop idom fuel (stab, X)
      else phyloChainLoop idom fuel (aSet stab (idom u) u, idom u :: X)

/-- `Phylo.py` `_update_stable`: seed the stability dict with `(l, l)` for
every leaf and walk the dominator chains; the fuel covers every run (each
pop either shrinks the stack or adds a fresh key). -/
def phyloStability (N : Net) (idom : Nat → Nat) (leaves : List Nat) : List (Nat × Nat) :=
  (phyloChainLoop idom (leaves.length + 2 * N.nodes.length + 1)
    (leaves.foldl (fun st l => aSet st l l) [], leaves.reverse)).1

instance {ε α : Type} [DecidableEq ε] [DecidableEq α] : DecidableEq (Except ε α) :=
  fun a b =>
    match a, b with
    | .ok x, .ok y =>
        if h : x = y then .isTrue (by rw [h])
        else .isFalse (by intro hc; cases hc; exact h rfl)
    | .error e, .error f =>
        if h : e = f then .isTrue (by rw [h])
        else .isFalse (by intro hc; cases hc; exact h rfl)
    | .ok _, .error _ => .isFalse (by intro hc; cases hc)
    | .error _, .ok _ => .isFalse (by intro hc; cases hc)

/-- A dominator map is correct for `N` rooted at `r`: it fixes the root,
stays inside the node set, and its iterated ancestors are exactly the
dominators (what `networkx.immediate_dominators` computes). -/
def IdomSpecHolds (N : Net) (r : Nat) (idom : Nat → Nat) : Prop :=
  idom r = r ∧ (∀ x ∈ N.nodes, idom x ∈ N.nodes) ∧
    ∀ w ∈ N.nodes, ∀ x ∈ N.nodes,
      (idomAncB idom N.nodes.length w x = true ↔ DominatesB N r w x = true)

instance (N : Net) (r : Nat) (idom : Nat → Nat) : Decidable (IdomSpecHolds N r idom) := by
  unfold IdomSpecHolds; infer_instance

/-- The network refuting C1: a root 0 with children 1 and 2, and two
two-parent leaves 3 and 4 below both.  Neither 1 nor 2 dominates any
leaf, yet the spread-based initialization marks vertex 1 (the first
predecessor of each leaf) stable. -/
def c1Net : Net := ⟨[0, 1, 2, 3, 4], [(0, 1), (0, 2), (1, 3), (2, 3), (1, 4), (2, 4)]⟩

/-- C1 as stated is false: on the validated `c1Net` the spread-based
`_update_stable` declares vertex 1 stable while the dominator-based one
does not (the dominator map used is certified against the dominator
semantics in the last conjunct). -/
theorem claim_C1_counterexample :
    updateInfos c1Net = .ok ⟨some 0, some 2, [3, 4], [3, 4]⟩ ∧
      isStableIn c1Net (recoUpdateStable c1Net [3, 4]).stability 1 = true ∧
      isStableIn c1Net (phyloStability c1Net (idomOf c1Net 0) [3, 4]) 1 = false ∧
      IdomSpecHolds c1Net 0 (idomOf c1Net 0) := by
  decide

/-- The network refuting C10: a caterpillar 0 -> 1 -> 3 with leaves 2, 4,
5, 6 hanging off.  The dominator-chain computation stores the popped chain
child as the value, which can be an internal vertex. -/
def c10Net : Net := ⟨[0, 1, 2, 3, 4, 5, 6], [(0, 1), (0, 2), (1, 3), (1, 4), (3, 5), (3, 6)]⟩

/-- C10 as stated is false: on the validated `c10Net` (leaves 2, 4, 5 and
6, processed in the embedded stack order), `Phylo.py` stores the internal
vertex 3 as the stability value of vertex 1, so `is_stable(1)` returns a
non-leaf identifier. -/
theorem claim_C10_counterexample :
    updateInfos c10Net = .ok ⟨some 0, some 2, [], [2, 4, 5, 6]⟩ ∧
      aFind (phyloStability c10Net (idomOf c10Net 0) [2, 4, 5, 6]) 1 = some 3 ∧
      c10Net.outDeg 3 = 2 ∧ (3 ∉ ([2, 4, 5, 6] : List Nat)) ∧
      IdomSpecHolds c10Net 0 (idomOf c10Net 0) := by
  decide

/-! Association-list lemmas and fold preservation. -/

theorem aGet_mem_of_aHas {β : Type} (d : β) (st : List (Nat × β)) (k : Nat)
    (h : aHas st k = true) : (k, aGet d st k) ∈ st := by
  induction st with
  | nil => cases h
  | cons kv rest ih =>
      obtain ⟨k0, v0⟩ := kv
      by_cases hk : k0 = k
      · subst hk
        simp [aGet]
      · simp only [aHas, decide_eq_true_eq, Bool.or_eq_true] at h
        rcases h with h | h
        · exact absurd h hk
        · simp only [aGet, if_neg hk]
          exact List.mem_cons_of_mem _ (ih h)

theorem mem_aSet {β : Type} {st : List (Nat × β)} {k : Nat} {v : β} {kv : Nat × β}
    (h : kv ∈ aSet st k v) : kv ∈ st ∨ kv = (k, v) := by
  induction st with
  | nil =>
      simp only [aSet] at h
      exact Or.inr (List.mem_singleton.mp h)
  | cons kv0 rest ih =>
      obtain ⟨k0, v0⟩ := kv0
      by_cases hk : k0 = k
      · simp only [aSet, if_pos hk] at h
        rcases List.mem_cons.mp h with h | h
        · subst hk
          exact Or.inr h
        · exact Or.inl (List.mem_cons_of_mem _ h)
      · simp only [aSet, if_neg hk] at h
        rcases List.mem_cons.mp h with h | h
        · exact Or.inl (by rw [h]; exact List.mem_cons_self _ _)
        · rcases ih h with h' | h'
          · exact Or.inl (List.mem_cons_of_mem _ h')
          · exact Or.inr h'

theorem aHas_aSet_self {β : Type} (st : List (Nat × β)) (k : Nat) (v : β) :
    aHas (aSet st k v) k = true := by
  induction st with
  | nil => simp [aSet, aHas]
  | cons kv rest ih =>
      obtain ⟨k0, v0⟩ := kv
      by_cases hk : k0 = k
      · simp [aSet, aHas, hk]
      · simp [aSet, aHas, hk, ih]

theorem aHas_aSet_of_aHas {β : Type} {st : List (Nat × β)} {k k' : Nat} (v : β)
    (h : aHas st k' = true) : aHas (aSet st k v) k' = true := by
  induction st with
  | nil => cases h
  | cons kv rest ih =>
      obtain ⟨k0, v0⟩ := kv
      simp only [aHas, Bool.or_eq_true, decide_eq_true_eq] at h
      by_cases hk : k0 = k
      · simp only [aSet, if_pos hk, aHas, Bool.or_eq_true, decide_eq_true_eq]
        exact h
      · simp only [aSet, if_neg hk, aHas, Bool.or_eq_true, decide_eq_true_eq]
        rcases h with h | h
        · exact Or.inl h
        · exact Or.inr (ih h)

theorem foldl_preserve {α σ : Type} (P : σ → Prop) (f : σ → α → σ)
    (h : ∀ s a, P s → P (f s a)) :
    ∀ (l : List α) (s : σ), P s → P (l.foldl f s) := by
  intro l
  induction l with
  | nil => intro s hs; exact hs
  | cons a rest ih =>
      intro s hs
      exact ih (f s a) (h s a hs)

theorem foldl_preserve_mem {α σ : Type} (P : σ → Prop) (f : σ → α → σ) :
    ∀ (l : List α), (∀ s a, a ∈ l → P s → P (f s a)) → ∀ s, P s → P (l.foldl f s) := by
  intro l
  induction l with
  | nil => intro _ s hs; exact hs
  | cons a rest ih =>
      intro h s hs
      exact ih (fun s b hb hp => h s b (List.mem_cons_of_mem a hb) hp) (f s a) (h s a (by simp) hs)

/-! The stability dict of the spread-based algorithm: the claim loop only
ever copies existing values, so a predicate holding for every stored pair
and closed under such copies is preserved by the whole run. -/

theorem stabPropJ_stability (st : StabState) (p j : Nat) :
    (stabPropJ st p j).stability = st.stability := by
  unfold stabPropJ
  split <;> rfl

theorem stabPropP_stability (v : Nat) (st : StabState) (p : Nat) :
    (stabPropP v st p).stability = st.stability := by
  unfold stabPropP
  dsimp only
  have h : ∀ (l : List Nat) (s : StabState), s.stability = st.stability →
      (l.foldl (fun s j => stabPropJ s p j) s).stability = st.stability := by
    intro l
    induction l with
    | nil => intro s hs; exact hs
    | cons j rest ih =>
        intro s hs
        exact ih _ (by rw [stabPropJ_stability]; exact hs)
  exact h _ _ rfl

theorem stabClaimX_stability (st : StabState) (p x : Nat) :
    (stabClaimX st p x).stability =
      if aHas st.stability x = true then aSet st.stability p (aGet 0 st.stability x)
      else st.stability := by
  unfold stabClaimX
  dsimp only
  by_cases h : aHas st.stability x = true
  · rw [if_pos h, if_pos h]
  · rw [if_neg h, if_neg h]

/-- Properties of the stability dict preserved by one claim: membership of
every pair in a fixed pair predicate that is closed under copying a stored
value to a new key. -/
def StabDictInv (Q : Nat → Prop) (st : List (Nat × Nat)) : Prop :=
  ∀ kv ∈ st, Q kv.2

theorem stabClaimX_dictInv (Q : Nat → Prop) (st : StabState) (p x : Nat)
    (h : StabDictInv Q st.stability) : StabDictInv Q (stabClaimX st p x).stability := by
  rw [stabClaimX_stability]
  split
  · rename_i hx
    intro kv hkv
    rcases mem_aSet hkv with h' | h'
    · exact h kv h'
    · rw [h']
      exact h (x, aGet 0 st.stability x) (aGet_mem_of_aHas 0 st.stability x hx)
  · exact h

theorem stabClaimP_dictInv (N : Net) (Q : Nat → Prop) (st : StabState) (p : Nat)
    (h : StabDictInv Q st.stability) : StabDictInv Q (stabClaimP N st p).stability := by
  unfold stabClaimP
  dsimp only
  split
  · apply foldl_preserve (fun s => StabDictInv Q s.stability)
      (fun s x => stabClaimX s p x)
      (fun s x hs => stabClaimX_dictInv Q s p x hs)
    exact h
  · exact h

theorem stabStep_dictInv (N : Net) (Q : Nat → Prop) (st : StabState) (v : Nat)
    (h : StabDictInv Q st.stability) : StabDictInv Q (stabStep N st v).stability := by
  unfold stabStep
  dsimp only
  apply foldl_preserve (fun s => StabDictInv Q s.stability)
    (fun s p => stabClaimP N s p)
    (fun s p hs => stabClaimP_dictInv N Q s p hs)
  apply foldl_preserve (fun s => StabDictInv Q s.stability)
    (fun s p => stabPropP v s p)
    (fun s p hs => by rw [stabPropP_stability]; exact hs)
  exact h

theorem stabLoop_dictInv (N : Net) (Q : Nat → Prop) :
    ∀ (fuel : Nat) (st : StabState),
      StabDictInv Q st.stability → StabDictInv Q (stabLoop N fuel st).stability := by
  intro fuel
  induction fuel with
  | zero => intro st h; exact h
  | succ fuel ih =>
      intro st h
      simp only [stabLoop]
      cases hq : st.queue with
      | nil => exact h
      | cons v rest => exact ih _ (stabStep_dictInv N Q _ v h)

theorem stabInit_dictInv (N : Net) (leaves : List Nat) (Q : Nat → Prop)
    (hl : ∀ l ∈ leaves, Q l) : StabDictInv Q (stabInit N leaves).stability := by
  unfold stabInit
  dsimp only
  apply foldl_preserve_mem (fun s => StabDictInv Q s) _ leaves
  · intro s a ha hs kv hkv
    rcases mem_aSet hkv with h' | h'
    · exact hs kv h'
    · rw [h']
      exact hl a ha
  · intro kv hkv
    cases hkv

/-- C10 amended: in the spread-based `_update_stable` of `RecoPhyNC.py`
every value stored in the stability map is a leaf of the network (the map
is seeded with leaves and only ever copies stored values), so `is_stable`
never returns a non-leaf identifier there; the dominator-chain
`_update_stable` of `Phylo.py` violates the claim (see the
counterexample), storing the dominator-tree child, which can be internal. -/
theorem claim_C10_amended_spread_values_are_leaves (N : Net) (leaves : List Nat)
    (hl : ∀ l ∈ leaves, N.outDeg l = 0) :
    ∀ kv ∈ (recoUpdateStable N leaves).stability, kv.2 ∈ leaves ∧ N.outDeg kv.2 = 0 := by
  intro kv hkv
  have h := stabLoop_dictInv N (fun x => x ∈ leaves ∧ N.outDeg x = 0)
    (leaves.length + N.nodes.length + 1) (stabInit N leaves)
    (stabInit_dictInv N leaves _ (fun l hlm => ⟨hlm, hl l hlm⟩))
  exact h kv hkv

theorem claim_C10_amended_spread_values_are_leaves_witness :
    (1, 4) ∈ (recoUpdateStable c1Net [3, 4]).stability ∧
      (4 ∈ [3, 4] ∧ c1Net.outDeg 4 = 0) :=
  ⟨by decide,
    claim_C10_amended_spread_values_are_leaves c1Net [3, 4] (by decide) (1, 4) (by decide)⟩

/-! Domain-monotonicity of the spread-based stability dict. -/

theorem stabClaimX_hasMono (st : StabState) (p x k : Nat)
    (h : aHas st.stability k = true) : aHas (stabClaimX st p x).stability k = true := by
  rw [stabClaimX_stability]
  split
  · exact aHas_aSet_of_aHas _ h
  · exact h

theorem stabStep_hasMono (N : Net) (st : StabState) (v k : Nat)
    (h : aHas st.stability k = true) : aHas (stabStep N st v).stability k = true := by
  unfold stabStep
  dsimp only
  apply foldl_preserve (fun s => aHas s.stability k = true)
    (fun s p => stabClaimP N s p)
  · intro s p hs
    unfold stabClaimP
    dsimp only
    split
    · apply foldl_preserve (fun s => aHas s.stability k = true) (fun s x => stabClaimX s p x)
        (fun s x h' => stabClaimX_hasMono s p x k h')
      exact hs
    · exact hs
  · apply foldl_preserve (fun s => aHas s.stability k = true) (fun s p => stabPropP v s p)
      (fun s p h' => by rw [stabPropP_stability]; exact h')
    exact h

theorem stabLoop_hasMono (N : Net) (k : Nat) :
    ∀ (fuel : Nat) (st : StabState),
      aHas st.stability k = true → aHas (stabLoop N fuel st).stability k = true := by
  intro fuel
  induction fuel with
  | zero => intro st h; exact h
  | succ fuel ih =>
      intro st h
      simp only [stabLoop]
      cases hq : st.queue with
      | nil => exact h
      | cons v rest => exact ih _ (stabStep_hasMono N _ v k h)

theorem stabInit_parent_has (N : Net) (leaves : List Nat) :
    ∀ l ∈ leaves, aHas (stabInit N leaves).stability ((N.preds l).headD 0) = true := by
  unfold stabInit
  dsimp only
  have key : ∀ (L : List Nat) (st0 : List (Nat × Nat)) (l : Nat), l ∈ L →
      aHas (L.foldl (fun st l => aSet st ((N.preds l).headD 0) l) st0)
        ((N.preds l).headD 0) = true := by
    intro L
    induction L with
    | nil => intro _ _ h; cases h
    | cons a rest ih =>
        intro st0 l hl
        rcases List.mem_cons.mp hl with rfl | hl
        · simp only [List.foldl_cons]
          apply foldl_preserve (fun st => aHas st ((N.preds l).headD 0) = true)
          · intro s b hs
            exact aHas_aSet_of_aHas _ hs
          · exact aHas_aSet_self _ _ _
        · exact ih _ l hl
  exact fun l hl => key leaves [] l hl

/-! The dominator-chain computation: its key set is exactly the set of
iterated immediate-dominator ancestors of the leaves. -/

/-- The key list of a stability dict. -/
def keysOf (st : List (Nat × Nat)) : List Nat := st.map Prod.fst

theorem aHas_iff_mem_keys (st : List (Nat × Nat)) (k : Nat) :
    aHas st k = true ↔ k ∈ keysOf st := by
  induction st with
  | nil => simp [aHas, keysOf]
  | cons kv rest ih =>
      obtain ⟨k0, v0⟩ := kv
      simp only [aHas, Bool.or_eq_true, decide_eq_true_eq, keysOf, List.map_cons,
        List.mem_cons, ih]
      constructor
      · rintro (h | h)
        · exact Or.inl h.symm
        · exact Or.inr h
      · rintro (h | h)
        · exact Or.inl h.symm
        · exact Or.inr h

theorem keys_aSet_of_not_has (st : List (Nat × Nat)) (k v : Nat)
    (h : aHas st k = false) : keysOf (aSet st k v) = keysOf st ++ [k] := by
  induction st with
  | nil => simp [aSet, keysOf]
  | cons kv rest ih =>
      obtain ⟨k0, v0⟩ := kv
      simp only [aHas, Bool.or_eq_false_iff, decide_eq_false_iff_not] at h
      show keysOf (if k0 = k then (k0, v) :: rest else (k0, v0) :: aSet rest k v) = _
      rw [if_neg h.1]
      show k0 :: keysOf (aSet rest k v) = k0 :: (keysOf rest ++ [k])
      rw [ih h.2]

theorem keys_aSet_of_has (st : List (Nat × Nat)) (k v : Nat)
    (h : aHas st k = true) : keysOf (aSet st k v) = keysOf st := by
  induction st with
  | nil => cases h
  | cons kv rest ih =>
      obtain ⟨k0, v0⟩ := kv
      by_cases hk : k0 = k
      · simp [aSet, hk, keysOf]
      · simp only [aHas, Bool.or_eq_true, decide_eq_true_eq] at h
        rcases h with h | h
        · exact absurd h hk
        · show keysOf (if k0 = k then (k0, v) :: rest else (k0, v0) :: aSet rest k v) = _
          rw [if_neg hk]
          show k0 :: keysOf (aSet rest k v) = k0 :: keysOf rest
          rw [ih h]

theorem nodup_length_le {l l' : List Nat} (hnd : l.Nodup) (hsub : ∀ x ∈ l, x ∈ l') :
    l.length ≤ l'.length := by
  have h1 : l.toFinset.card = l.length := List.toFinset_card_of_nodup hnd
  have h2 : l.toFinset ⊆ l'.toFinset := by
    intro x hx
    rw [List.mem_toFinset] at hx ⊢
    exact hsub x hx
  have h3 := Finset.card_le_card h2
  have h4 : l'.toFinset.card ≤ l'.length := l'.toFinset_card_le
  omega

/-- The invariant carried by the dominator-chain worklist of
`Phylo.py` `_update_stable`. -/
structure ChainInv (idom : Nat → Nat) (nodes leaves : List Nat)
    (stab : List (Nat × Nat)) (X : List Nat) : Prop where
  keys_nodup : (keysOf stab).Nodup
  keys_sub : ∀ k ∈ keysOf stab, k ∈ nodes
  stack_sub : ∀ u ∈ X, aHas stab u = true
  reach : ∀ w, aHas stab w = true →
    ∃ x ∈ leaves, ∃ k, k ≤ (keysOf stab).length ∧ idom^[k] x = w
  closed : ∀ w, aHas stab w = true → aHas stab (idom w) = true ∨ w ∈ X
  leaves_in : ∀ l ∈ leaves, aHas stab l = true

theorem chainLoop_invariant (idom : Nat → Nat) (nodes leaves : List Nat)
    (hid : ∀ x ∈ nodes, idom x ∈ nodes) :
    ∀ (fuel : Nat) (stab : List (Nat × Nat)) (X : List Nat),
      ChainInv idom nodes leaves stab X →
      2 * (nodes.length - (keysOf stab).length) + X.length < fuel →
      (phyloChainLoop idom fuel (stab, X)).2 = [] ∧
        ChainInv idom nodes leaves (phyloChainLoop idom fuel (stab, X)).1
          (phyloChainLoop idom fuel (stab, X)).2 ∧
        ∀ w, aHas stab w = true → aHas (phyloChainLoop idom fuel (stab, X)).1 w = true := by
  intro fuel
  induction fuel with
  | zero =>
      intro stab X hinv hf
      exact absurd hf (Nat.not_lt_zero _)
  | succ fuel ih =>
      intro stab X hinv hf
      cases X with
      | nil =>
          refine ⟨rfl, hinv, fun w h => h⟩
      | cons u X =>
          simp only [phyloChainLoop]
          by_cases hu : aHas stab (idom u) = true
          · rw [if_pos hu]
            have hinv' : ChainInv idom nodes leaves stab X :=
              { keys_nodup := hinv.keys_nodup
                keys_sub := hinv.keys_sub
                stack_sub := fun v hv => hinv.stack_sub v (List.mem_cons_of_mem _ hv)
                reach := hinv.reach
                closed := by
                  intro w hw
                  rcases hinv.closed w hw with h | h
                  · exact Or.inl h
                  · rcases List.mem_cons.mp h with rfl | h
                    · exact Or.inl hu
                    · exact Or.inr h
                leaves_in := hinv.leaves_in }
            apply ih stab X hinv'
            simp only [List.length_cons] at hf
            omega
          · rw [if_neg hu]
            have humem : aHas stab u = true := hinv.stack_sub u (List.mem_cons_self _ _)
            have hunode : u ∈ nodes := hinv.keys_sub u ((aHas_iff_mem_keys _ _).mp humem)
            have hvnode : idom u ∈ nodes := hid u hunode
            have hufalse : aHas stab (idom u) = false := by
              cases hh : aHas stab (idom u)
              · rfl
              · exact absurd hh hu
            have hkeys : keysOf (aSet stab (idom u) u) = keysOf stab ++ [idom u] :=
              keys_aSet_of_not_has stab (idom u) u hufalse
            have hnotin : idom u ∉ keysOf stab := by
              intro hc
              exact hu ((aHas_iff_mem_keys _ _).mpr hc)
            have hnd' : (keysOf (aSet stab (idom u) u)).Nodup := by
              rw [hkeys]
              rw [List.nodup_append]
              exact ⟨hinv.keys_nodup, List.nodup_singleton _,
                fun a ha hb => hnotin (by rw [List.mem_singleton.mp hb] at ha; exact ha)⟩
            have hsub' : ∀ k ∈ keysOf (aSet stab (idom u) u), k ∈ nodes := by
              rw [hkeys]
              intro k hk
              rcases List.mem_append.mp hk with h | h
              · exact hinv.keys_sub k h
              · rw [List.mem_singleton.mp h]
                exact hvnode
            have hlen' : (keysOf (aSet stab (idom u) u)).length = (keysOf stab).length + 1 := by
              rw [hkeys, List.length_append, List.length_singleton]
            have hmono : ∀ w, aHas stab w = true → aHas (aSet stab (idom u) u) w = true :=
              fun w hw => aHas_aSet_of_aHas _ hw
            have hself : aHas (aSet stab (idom u) u) (idom u) = true := aHas_aSet_self _ _ _
            have hkeyslen_le : (keysOf (aSet stab (idom u) u)).length ≤ nodes.length :=
              nodup_length_le hnd' hsub'
            have hinv' : ChainInv idom nodes leaves (aSet stab (idom u) u) (idom u :: X) :=
              { keys_nodup := hnd'
                keys_sub := hsub'
                stack_sub := by
                  intro v hv
                  rcases List.mem_cons.mp hv with rfl | hv
                  · exact hself
                  · exact hmono v (hinv.stack_sub v (List.mem_cons_of_mem _ hv))
                reach := by
                  intro w hw
                  by_cases hwv : aHas stab w = true
                  · rcases hinv.reach w hwv with ⟨x, hx, k, hk, hit⟩
                    exact ⟨x, hx, k, by omega, hit⟩
                  · have hw' : w = idom u := by
                      rw [aHas_iff_mem_keys, hkeys] at hw
                      rcases List.mem_append.mp hw with h | h
                      · exact absurd ((aHas_iff_mem_keys _ _).mpr h) hwv
                      · exact List.mem_singleton.mp h
                    subst hw'
                    rcases hinv.reach u humem with ⟨x, hx, k, hk, hit⟩
                    refine ⟨x, hx, k + 1, by omega, ?_⟩
                    rw [Function.iterate_succ_apply', hit]
                closed := by
                  intro w hw
                  by_cases hwv : aHas stab w = true
                  · rcases hinv.closed w hwv with h | h
                    · exact Or.inl (hmono _ h)
                    · rcases List.mem_cons.mp h with rfl | h
                      · exact Or.inl hself
                      · exact Or.inr (List.mem_cons_of_mem _ h)
                  · have hw' : w = idom u := by
                      rw [aHas_iff_mem_keys, hkeys] at hw
                      rcases List.mem_append.mp hw with h | h
                      · exact absurd ((aHas_iff_mem_keys _ _).mpr h) hwv
                      · exact List.mem_singleton.mp h
                    subst hw'
                    exact Or.inr (List.mem_cons_self _ _)
                leaves_in := fun l hl => hmono l (hinv.leaves_in l hl) }
            have hstep := ih (aSet stab (idom u) u) (idom u :: X) hinv' (by
              simp only [List.length_cons] at hf ⊢
              omega)
            exact ⟨hstep.1, hstep.2.1, fun w hw => hstep.2.2 w (hmono w hw)⟩

theorem idomAncB_of_iterate (idom : Nat → Nat) :
    ∀ (fuel k w x : Nat), k ≤ fuel → idom^[k] x = w → idomAncB idom fuel w x = true := by
  intro fuel
  induction fuel with
  | zero =>
      intro k w x hk hit
      have : k = 0 := by omega
      subst this
      simp only [Function.iterate_zero, id_eq] at hit
      simp [idomAncB, hit]
  | succ fuel ih =>
      intro k w x hk hit
      cases k with
      | zero =>
          simp only [Function.iterate_zero, id_eq] at hit
          simp [idomAncB, hit]
      | succ k =>
          simp only [idomAncB, Bool.or_eq_true, decide_eq_true_eq]
          refine Or.inr (ih k w (idom x) (by omega) ?_)
          rw [← Function.iterate_succ_apply]
          exact hit

theorem iterate_of_idomAncB (idom : Nat → Nat) :
    ∀ (fuel w x : Nat), idomAncB idom fuel w x = true → ∃ k, k ≤ fuel ∧ idom^[k] x = w := by
  intro fuel
  induction fuel with
  | zero =>
      intro w x h
      simp only [idomAncB, decide_eq_true_eq] at h
      exact ⟨0, le_refl 0, by simp [h.symm]⟩
  | succ fuel ih =>
      intro w x h
      simp only [idomAncB, Bool.or_eq_true, decide_eq_true_eq] at h
      rcases h with h | h
      · exact ⟨0, by omega, by simp [h.symm]⟩
      · rcases ih w (idom x) h with ⟨k, hk, hit⟩
        refine ⟨k + 1, by omega, ?_⟩
        rw [Function.iterate_succ_apply]
        exact hit

/-! The initial chain state and the full characterization. -/

theorem chainInit_has (leaves : List Nat) :
    ∀ l ∈ leaves, aHas (leaves.foldl (fun st l => aSet st l l) []) l = true := by
  have key : ∀ (L : List Nat) (st0 : List (Nat × Nat)) (l : Nat), l ∈ L →
      aHas (L.foldl (fun st l => aSet st l l) st0) l = true := by
    intro L
    induction L with
    | nil => intro _ _ h; cases h
    | cons a rest ih =>
        intro st0 l hl
        rcases List.mem_cons.mp hl with rfl | hl
        · simp only [List.foldl_cons]
          apply foldl_preserve (fun st => aHas st l = true)
          · intro s b hs
            exact aHas_aSet_of_aHas _ hs
          · exact aHas_aSet_self _ _ _
        · exact ih _ l hl
  exact fun l hl => key leaves [] l hl

theorem chainInit_keys_sub (leaves : List Nat) :
    ∀ k ∈ keysOf (leaves.foldl (fun st l => aSet st l l) []), k ∈ leaves := by
  have key : ∀ (L : List Nat) (st0 : List (Nat × Nat)),
      (∀ k ∈ keysOf st0, k ∈ leaves) → (∀ a ∈ L, a ∈ leaves) →
      ∀ k ∈ keysOf (L.foldl (fun st l => aSet st l l) st0), k ∈ leaves := by
    intro L
    induction L with
    | nil => intro st0 h0 _ k hk; exact h0 k hk
    | cons a rest ih =>
        intro st0 h0 hL k hk
        refine ih (aSet st0 a a) ?_ (fun b hb => hL b (List.mem_cons_of_mem _ hb)) k hk
        intro k' hk'
        rcases List.mem_map.mp hk' with ⟨kv, hkv, hfst⟩
        rcases mem_aSet hkv with h | h
        · exact h0 k' (List.mem_map.mpr ⟨kv, h, hfst⟩)
        · rw [h] at hfst
          rw [← hfst]
          exact hL a (List.mem_cons_self _ _)
  intro k hk
  exact key leaves [] (fun k hk => by cases hk) (fun a ha => ha) k hk

theorem chainInit_keys_nodup (leaves : List Nat) :
    (keysOf (leaves.foldl (fun st l => aSet st l l) [])).Nodup := by
  have key : ∀ (L : List Nat) (st0 : List (Nat × Nat)),
      (keysOf st0).Nodup → (keysOf (L.foldl (fun st l => aSet st l l) st0)).Nodup := by
    intro L
    induction L with
    | nil => intro st0 h; exact h
    | cons a rest ih =>
        intro st0 h
        apply ih
        cases hh : aHas st0 a
        · rw [keys_aSet_of_not_has st0 a a hh]
          rw [List.nodup_append]
          refine ⟨h, List.nodup_singleton _, ?_⟩
          intro x hx hb
          rw [List.mem_singleton.mp hb] at hx
          exact absurd ((aHas_iff_mem_keys _ _).mpr hx) (by rw [hh]; simp)
        · rw [keys_aSet_of_has st0 a a hh]
          exact h
  exact key leaves [] (by simp [keysOf])

/-- The domain of the `Phylo.py` stability map is exactly the set of
iterated immediate-dominator ancestors of leaves. -/
theorem phyloStability_aHas_iff (N : Net) (idom : Nat → Nat) (leaves : List Nat)
    (hid : ∀ x ∈ N.nodes, idom x ∈ N.nodes)
    (hlv : ∀ l ∈ leaves, l ∈ N.nodes) (w : Nat) :
    aHas (phyloStability N idom leaves) w = true ↔
      ∃ x ∈ leaves, idomAncB idom N.nodes.length w x = true := by
  unfold phyloStability
  set stab0 := leaves.foldl (fun st l => aSet st l l) [] with hstab0
  have hinv0 : ChainInv idom N.nodes leaves stab0 leaves.reverse :=
    { keys_nodup := chainInit_keys_nodup leaves
      keys_sub := fun k hk => hlv k (chainInit_keys_sub leaves k hk)
      stack_sub := fun u hu => chainInit_has leaves u (List.mem_reverse.mp hu)
      reach := by
        intro w hw
        have hwl : w ∈ leaves := chainInit_keys_sub leaves w ((aHas_iff_mem_keys _ _).mp hw)
        exact ⟨w, hwl, 0, by omega, by simp⟩
      closed := by
        intro w hw
        have hwl : w ∈ leaves := chainInit_keys_sub leaves w ((aHas_iff_mem_keys _ _).mp hw)
        exact Or.inr (List.mem_reverse.mpr hwl)
      leaves_in := chainInit_has leaves }
  have hfuel : 2 * (N.nodes.length - (keysOf stab0).length) + leaves.reverse.length <
      leaves.length + 2 * N.nodes.length + 1 := by
    have := List.length_reverse leaves
    omega
  have hmain := chainLoop_invariant idom N.nodes leaves hid
    (leaves.length + 2 * N.nodes.length + 1) stab0 leaves.reverse hinv0 hfuel
  set res := phyloChainLoop idom (leaves.length + 2 * N.nodes.length + 1)
    (stab0, leaves.reverse) with hres
  obtain ⟨hempty, hinv, hmono⟩ := hmain
  constructor
  · intro hw
    rcases hinv.reach w hw with ⟨x, hx, k, hk, hit⟩
    have hlen : (keysOf res.1).length ≤ N.nodes.length :=
      nodup_length_le hinv.keys_nodup hinv.keys_sub
    exact ⟨x, hx, idomAncB_of_iterate idom N.nodes.length k w x (by omega) hit⟩
  · rintro ⟨x, hx, hanc⟩
    rcases iterate_of_idomAncB idom N.nodes.length w x hanc with ⟨k, hk, hit⟩
    have hclosed : ∀ w', aHas res.1 w' = true → aHas res.1 (idom w') = true := by
      intro w' hw'
      rcases hinv.closed w' hw' with h | h
      · exact h
      · rw [hempty] at h
        cases h
    have : ∀ j, aHas res.1 (idom^[j] x) = true := by
      intro j
      induction j with
      | zero =>
          simp only [Function.iterate_zero, id_eq]
          exact hinv.leaves_in x hx
      | succ j ih =>
          rw [Function.iterate_succ_apply']
          exact hclosed _ ih
    rw [← hit]
    exact this k

/-- C1 amended: the two stability computations do not declare the same
vertices stable.  The spread-based one of `RecoPhyNC.py` always declares
the first predecessor of every leaf stable through its initialization,
even when that vertex dominates no leaf, while the dominator-based one of
`Phylo.py` declares stable exactly the leaves and the iterated
immediate-dominator ancestors of leaves (so the two sets differ on the
counterexample network). -/
theorem claim_C1_amended_stability_domains (N : Net) (idom : Nat → Nat) (leaves : List Nat)
    (hid : ∀ x ∈ N.nodes, idom x ∈ N.nodes)
    (hlv : ∀ l ∈ leaves, l ∈ N.nodes) :
    (∀ l ∈ leaves,
        aHas (recoUpdateStable N leaves).stability ((N.preds l).headD 0) = true) ∧
      (∀ w, isStableIn N (phyloStability N idom leaves) w = true ↔
        N.isLeafNode w = true ∨ ∃ x ∈ leaves, idomAncB idom N.nodes.length w x = true) := by
  constructor
  · intro l hl
    exact stabLoop_hasMono N ((N.preds l).headD 0) _ _ (stabInit_parent_has N leaves l hl)
  · intro w
    unfold isStableIn
    by_cases hleaf : N.isLeafNode w = true
    · simp [hleaf]
    · rw [if_neg hleaf]
      rw [phyloStability_aHas_iff N idom leaves hid hlv w]
      constructor
      · exact Or.inr
      · rintro (h | h)
        · exact absurd h hleaf
        · exact h

theorem claim_C1_amended_stability_domains_witness :
    aHas (recoUpdateStable c1Net [3, 4]).stability ((c1Net.preds 3).headD 0) = true :=
  (claim_C1_amended_stability_domains c1Net (idomOf c1Net 0) [3, 4]
    (by decide) (by decide)).1 3 (by decide)

/-! ## C3 — `NumUnstableRoots` and the ComponentVisible side effect

`compute_unstable_roots` walks the reticulations; for each one whose
`is_stable` value is falsy it reads the first successor `v`, and when `v`
is not a reticulation it adds `v` to the `unstable_roots` set.  It then
stores the boolean `not self.unstable_roots` into `cv` and into `ur`, and
`check` finally stores the size of the set into `ur`. -/

/-- `infosRooted` only writes `root` and `regular`: the reticulation and
leaf lists pass through untouched. -/
theorem infosRooted_tags (N : Net) (s : Infos) (i : Nat) (s1 : Infos)
    (h : infosRooted N s i = .ok s1) :
    s1.reticulations = s.reticulations ∧ s1.leaves = s.leaves := by
  unfold infosRooted at h
  by_cases h0 : N.inDeg i = 0
  · rw [if_pos h0] at h
    cases hr : s.root with
    | none => rw [hr] at h; cases h; exact ⟨rfl, rfl⟩
    | some r => rw [hr] at h; cases h
  · rw [if_neg h0] at h
    by_cases hp : 0 < N.outDeg i
    · rw [if_pos hp] at h
      cases hreg : s.regular with
      | none => rw [hreg] at h; cases h; exact ⟨rfl, rfl⟩
      | some k => rw [hreg] at h; cases h; exact ⟨rfl, rfl⟩
    · rw [if_neg hp] at h
      cases h
      exact ⟨rfl, rfl⟩

/-- `infosTag` appends `i` to the reticulation list exactly when its
in-degree exceeds one, and to the leaf list exactly when its out-degree is
zero. -/
theorem infosTag_tags (N : Net) (i : Nat) (s : Infos) :
    (infosTag N i s).reticulations
        = s.reticulations ++ (if 1 < N.inDeg i then [i] else []) ∧
      (infosTag N i s).leaves = s.leaves ++ (if N.outDeg i = 0 then [i] else []) := by
  unfold infosTag
  by_cases h1 : 1 < N.inDeg i <;> by_cases h2 : N.outDeg i = 0 <;> simp [h1, h2]

/-- Field bookkeeping of one `_update_infos` loop body. -/
theorem infosStep_tags (N : Net) (s : Infos) (i : Nat) (s1 : Infos)
    (h : infosStep N s i = .ok s1) :
    s1.reticulations = s.reticulations ++ (if 1 < N.inDeg i then [i] else []) ∧
      s1.leaves = s.leaves ++ (if N.outDeg i = 0 then [i] else []) := by
  unfold infosStep at h
  split at h
  · cases h
  · split at h
    · cases h
    · cases hr : infosRooted N s i with
      | error e => rw [hr] at h; cases h
      | ok smid =>
          rw [hr] at h
          cases h
          obtain ⟨hret, hlv⟩ := infosRooted_tags N s i smid hr
          obtain ⟨hret2, hlv2⟩ := infosTag_tags N i smid
          rw [hret2, hlv2, hret, hlv]
          exact ⟨rfl, rfl⟩

/-- The `_update_infos` loop collects the high-in-degree vertices and the
out-degree-zero vertices of its range, in visit order. -/
theorem infosLoop_tags (N : Net) :
    ∀ (l : List Nat) (s s1 : Infos), infosLoop N l s = .ok s1 →
      s1.reticulations = s.reticulations ++ l.filter (fun i => decide (1 < N.inDeg i)) ∧
        s1.leaves = s.leaves ++ l.filter (fun i => decide (N.outDeg i = 0)) := by
  intro l
  induction l with
  | nil =>
      intro s s1 h
      simp only [infosLoop] at h
      cases h
      simp
  | cons i rest ih =>
      intro s s1 h
      simp only [infosLoop] at h
      cases hstep : infosStep N s i with
      | error e => rw [hstep] at h; cases h
      | ok smid =>
          rw [hstep] at h
          obtain ⟨hret, hlv⟩ := ih smid s1 h
          obtain ⟨hret0, hlv0⟩ := infosStep_tags N s i smid hstep
          rw [hret, hlv, hret0, hlv0]
          constructor
          · by_cases h1 : 1 < N.inDeg i <;>
              simp [List.filter_cons, h1, List.append_assoc]
          · by_cases h2 : N.outDeg i = 0 <;>
              simp [List.filter_cons, h2, List.append_assoc]

/-- A validated network classifies exactly the in-degree-above-one vertices
as reticulations and exactly the out-degree-zero vertices as leaves. -/
theorem updateInfos_tags (N : Net) (s : Infos) (h : updateInfos N = .ok s) :
    s.reticulations = N.nodes.filter (fun i => decide (1 < N.inDeg i)) ∧
      s.leaves = N.nodes.filter (fun i => decide (N.outDeg i = 0)) := by
  unfold updateInfos at h
  split at h
  · cases h
  · rename_i sl hl
    split at h
    · cases h
    · cases h
      obtain ⟨hret, hlv⟩ := infosLoop_tags N N.nodes _ sl hl
      simp only [List.nil_append] at hret hlv
      exact ⟨hret, hlv⟩

/-- Predecessor-list membership is edge membership. -/
theorem mem_preds_iff (N : Net) (y x : Nat) : y ∈ N.preds x ↔ (y, x) ∈ N.edges := by
  unfold Net.preds
  constructor
  · intro h
    rcases List.mem_map.mp h with ⟨e, he, hf⟩
    have h1 := List.mem_of_mem_filter he
    have h2 := List.of_mem_filter he
    simp only [decide_eq_true_eq] at h2
    obtain ⟨a, b⟩ := e
    simp only at hf h2
    rw [← hf, ← h2]
    exact h1
  · intro h
    exact List.mem_map.mpr ⟨(y, x), List.mem_filter.mpr ⟨h, by simp⟩, rfl⟩

/-- Successor-list membership is edge membership. -/
theorem mem_succs_iff (N : Net) (x w : Nat) : w ∈ N.succs x ↔ (x, w) ∈ N.edges := by
  unfold Net.succs
  constructor
  · intro h
    rcases List.mem_map.mp h with ⟨e, he, hf⟩
    have h1 := List.mem_of_mem_filter he
    have h2 := List.of_mem_filter he
    simp only [decide_eq_true_eq] at h2
    obtain ⟨a, b⟩ := e
    simp only at hf h2
    rw [← hf, ← h2]
    exact h1
  · intro h
    exact List.mem_map.mpr ⟨(x, w), List.mem_filter.mpr ⟨h, by simp⟩, rfl⟩

/-- Structure of a walk: the trivial walk at the root, or a shorter walk
to a predecessor extended by the endpoint. -/
theorem walksTo_shape (N : Net) (r : Nat) :
    ∀ (fuel x : Nat) (p : List Nat), p ∈ walksTo N r fuel x →
      (x = r ∧ p = [r]) ∨
        ∃ fuel1 y q, fuel = fuel1 + 1 ∧ y ∈ N.preds x ∧
          q ∈ walksTo N r fuel1 y ∧ p = q ++ [x] := by
  intro fuel x p hp
  cases fuel with
  | zero =>
      simp only [walksTo] at hp
      split at hp
      · rename_i hx
        exact Or.inl ⟨hx, List.mem_singleton.mp hp⟩
      · cases hp
  | succ fuel =>
      simp only [walksTo] at hp
      rcases List.mem_append.mp hp with h | h
      · split at h
        · rename_i hx
          exact Or.inl ⟨hx, List.mem_singleton.mp h⟩
        · cases h
      · rcases List.mem_flatten.mp h with ⟨ws, hws, hpws⟩
        rcases List.mem_map.mp hws with ⟨y, hy, rfl⟩
        rcases List.mem_map.mp hpws with ⟨q, hq, rfl⟩
        exact Or.inr ⟨fuel, y, q, rfl, hy, hq, rfl⟩

/-- A walk contains its target vertex. -/
theorem walksTo_end_mem (N : Net) (r : Nat) (fuel x : Nat) (p : List Nat)
    (hp : p ∈ walksTo N r fuel x) : x ∈ p := by
  rcases walksTo_shape N r fuel x p hp with ⟨hxr, rfl⟩ | ⟨f1, y, q, hf, hy, hq, rfl⟩
  · simp [hxr]
  · exact List.mem_append_right q (List.mem_singleton.mpr rfl)

/-- Inside a walk, a non-final vertex is followed by one of its graph
successors. -/
theorem walksTo_succ_after (N : Net) (r : Nat) :
    ∀ (fuel x : Nat) (p : List Nat), p ∈ walksTo N r fuel x →
      ∀ u ∈ p, u ≠ x → ∃ w, (u, w) ∈ N.edges ∧ w ∈ p := by
  intro fuel
  induction fuel with
  | zero =>
      intro x p hp u hu hne
      rcases walksTo_shape N r 0 x p hp with ⟨hxr, rfl⟩ | ⟨f1, y, q, hf, hrest⟩
      · exact absurd ((List.mem_singleton.mp hu).trans hxr.symm) hne
      · cases hf
  | succ fuel ih =>
      intro x p hp u hu hne
      rcases walksTo_shape N r (fuel + 1) x p hp with ⟨hxr, rfl⟩ | ⟨f1, y, q, hf, hy, hq, rfl⟩
      · exact absurd ((List.mem_singleton.mp hu).trans hxr.symm) hne
      · obtain hf1 : f1 = fuel := by omega
        subst hf1
        rcases List.mem_append.mp hu with huq | hux
        · by_cases huy : u = y
          · subst huy
            exact ⟨x, (mem_preds_iff N u x).mp hy,
              List.mem_append_right q (List.mem_singleton.mpr rfl)⟩
          · rcases ih y q hq u huq huy with ⟨w, hw, hwq⟩
            exact ⟨w, hw, List.mem_append_left _ hwq⟩
        · exact absurd (List.mem_singleton.mp hux) hne

/-- When `u` is the only predecessor of `v`, every walk containing `v`
also contains `u`. -/
theorem walksTo_pred_before (N : Net) (r u v : Nat) (hvr : v ≠ r)
    (hpv : N.preds v = [u]) :
    ∀ (fuel x : Nat) (p : List Nat), p ∈ walksTo N r fuel x → v ∈ p → u ∈ p := by
  intro fuel
  induction fuel with
  | zero =>
      intro x p hp hv
      rcases walksTo_shape N r 0 x p hp with ⟨hxr, rfl⟩ | ⟨f1, y, q, hf, hrest⟩
      · exact absurd (List.mem_singleton.mp hv) hvr
      · cases hf
  | succ fuel ih =>
      intro x p hp hv
      rcases walksTo_shape N r (fuel + 1) x p hp with ⟨hxr, rfl⟩ | ⟨f1, y, q, hf, hy, hq, rfl⟩
      · exact absurd (List.mem_singleton.mp hv) hvr
      · obtain hf1 : f1 = fuel := by omega
        subst hf1
        rcases List.mem_append.mp hv with hvq | hvx
        · exact List.mem_append_left _ (ih y q hq hvq)
        · have hxv : x = v := (List.mem_singleton.mp hvx).symm
          subst hxv
          rw [hpv] at hy
          have hyu : y = u := List.mem_singleton.mp hy
          exact List.mem_append_left _ (hyu ▸ walksTo_end_mem N r f1 y q hq)

/-- `DominatesB` unfolded to a membership statement. -/
theorem dominatesB_iff (N : Net) (r w x : Nat) :
    DominatesB N r w x = true ↔ ∀ p ∈ walksTo N r N.nodes.length x, w ∈ p := by
  simp [DominatesB, List.all_eq_true]

/-- Every vertex is its own iterated-`idom` ancestor. -/
theorem idomAncB_refl (idom : Nat → Nat) (fuel x : Nat) :
    idomAncB idom fuel x x = true := by
  cases fuel <;> simp [idomAncB]

theorem bool_eq_of_iff {a b : Bool} (h : a = true ↔ b = true) : a = b := by
  cases a <;> cases b <;> simp_all

/-- `v = next(successors(u))`, total with a default (only read on
vertices whose successor list is nonempty). -/
def childOf (N : Net) (u : Nat) : Nat := (N.succs u).headD 0

/-- The `unstable_roots` set built by `compute_unstable_roots`: walk the
reticulation list; a reticulation with a falsy `is_stable` value
contributes its first successor when that successor is not itself a
reticulation. -/
def unstableRootsOf (N : Net) (stab : List (Nat × Nat)) (retics : List Nat) : List Nat :=
  retics.foldl
    (fun acc u =>
      if isStableIn N stab u then acc
      else
        if N.isReticulation (childOf N u) then acc
        else setInsert acc (childOf N u)) []

/-- The boolean `not self.unstable_roots` that `compute_unstable_roots`
passes to the ComponentVisible property. -/
def cvSideEffect (N : Net) (stab : List (Nat × Nat)) (retics : List Nat) : Bool :=
  (unstableRootsOf N stab retics).isEmpty

/-- A python value stored by `NumUnstableRoots`: a bool or an int. -/
inductive PyVal where
  | pybool (b : Bool)
  | pyint (n : Nat)
  deriving Repr, DecidableEq

/-- Numeric content: python compares `True == 1` and `False == 0`. -/
def pyNum : PyVal → Nat
  | .pybool b => if b then 1 else 0
  | .pyint n => n

/-- `NetworkProperty.set`: overwrite only when `val != self.val` (python
`!=` compares bools and ints numerically; an unset property, python
`None`, always accepts). -/
def pyPropSet (old : Option PyVal) (v : PyVal) : Option PyVal :=
  match old with
  | none => some v
  | some o => if pyNum o ≠ pyNum v then some v else some o

/-- The `ur` value after `check`: `set(not S)` inside
`compute_unstable_roots`, then `set(len(S))`. -/
def urFinal (N : Net) (stab : List (Nat × Nat)) (retics : List Nat) : Option PyVal :=
  pyPropSet (pyPropSet none (.pybool (unstableRootsOf N stab retics).isEmpty))
    (.pyint (unstableRootsOf N stab retics).length)

/-- Modelled from the claim: a reticulation counts when its single child
exists, is not a reticulation, and is not stable. -/
def claimUnstableCond (N : Net) (stab : List (Nat × Nat)) (u : Nat) : Bool :=
  !(N.succs u).isEmpty && !N.isReticulation (childOf N u) &&
    !isStableIn N stab (childOf N u)

/-- The guard actually tested by `compute_unstable_roots`: stability of
the reticulation itself. -/
def codeUnstableCond (N : Net) (stab : List (Nat × Nat)) (u : Nat) : Bool :=
  !isStableIn N stab u && !N.isReticulation (childOf N u)

theorem pyPropSet_none (v : PyVal) : pyPropSet none v = some v := rfl

theorem pyPropSet_some (o v : PyVal) :
    pyPropSet (some o) v = if pyNum o ≠ pyNum v then some v else some o := rfl

theorem list_isEmpty_iff_length {α : Type} (l : List α) :
    l.isEmpty = true ↔ l.length = 0 := by
  cases l <;> simp

/-- The double `set` leaves the numeric size in the `ur` property: the
boolean stored first never compares python-equal to the size. -/
theorem urFinal_eq (N : Net) (stab : List (Nat × Nat)) (retics : List Nat) :
    urFinal N stab retics = some (.pyint (unstableRootsOf N stab retics).length) := by
  unfold urFinal
  rw [pyPropSet_none, pyPropSet_some]
  cases hemp : (unstableRootsOf N stab retics).isEmpty
  · have hne : (unstableRootsOf N stab retics).length ≠ 0 := by
      intro hc
      have h2 := (list_isEmpty_iff_length (unstableRootsOf N stab retics)).mpr hc
      rw [hemp] at h2
      cases h2
    rw [if_pos (by simp [pyNum]; omega)]
  · have h0 : (unstableRootsOf N stab retics).length = 0 :=
      (list_isEmpty_iff_length (unstableRootsOf N stab retics)).mp hemp
    rw [if_pos (by simp [pyNum, h0])]

/-- A guarded fold is a fold over the filtered list. -/
theorem foldl_guard_eq_filter {α σ : Type} (p : α → Bool) (g : σ → α → σ)
    (body : σ → α → σ) (hbody : ∀ acc u, body acc u = if p u then g acc u else acc) :
    ∀ (L : List α) (acc : σ), L.foldl body acc = (L.filter p).foldl g acc := by
  intro L
  induction L with
  | nil => intro acc; rfl
  | cons a rest ih =>
      intro acc
      rw [List.foldl_cons, hbody]
      cases hp : p a
      · simp only [List.filter_cons, hp, Bool.false_eq_true, if_false]
        exact ih acc
      · simp only [List.filter_cons, hp, if_true, List.foldl_cons]
        exact ih (g acc a)

/-- Folding `setInsert` over fresh, pairwise-distinct images adds one
element per list entry. -/
theorem foldl_setInsert_fresh (f : Nat → Nat) :
    ∀ (L : List Nat) (acc : List Nat),
      (∀ u ∈ L, f u ∉ acc) → List.Pairwise (fun a b => f a ≠ f b) L →
      (L.foldl (fun a u => setInsert a (f u)) acc).length = acc.length + L.length := by
  intro L
  induction L with
  | nil => intro acc _ _; simp
  | cons a rest ih =>
      intro acc hfr hpw
      rw [List.foldl_cons]
      have hnotin : f a ∉ acc := hfr a (List.mem_cons_self a rest)
      have hset : setInsert acc (f a) = acc ++ [f a] := by
        unfold setInsert
        rw [if_neg hnotin]
      rw [hset]
      have hfr2 : ∀ u ∈ rest, f u ∉ acc ++ [f a] := by
        intro u hu hmem
        rcases List.mem_append.mp hmem with h | h
        · exact hfr u (List.mem_cons_of_mem a hu) h
        · exact (List.rel_of_pairwise_cons hpw hu) (List.mem_singleton.mp h).symm
      rw [ih (acc ++ [f a]) hfr2 (List.Pairwise.of_cons hpw)]
      simp only [List.length_append, List.length_cons, List.length_nil]
      omega

/-- The heart of C3: for a reticulation `u` of a validated network with
sole successor `v` of in-degree one, the guard the code tests (is `u`
stable?) and the guard the claim states (is `v` stable?) agree: `u` lies
on a dominator chain of a leaf exactly when `v` is a leaf or lies on
one. -/
theorem aHas_iff_child_stable (N : Net) (r : Nat) (idom : Nat → Nat)
    (leaves : List Nat) (stab : List (Nat × Nat))
    (hchar : ∀ w, aHas stab w = true ↔
      ∃ x ∈ leaves, idomAncB idom N.nodes.length w x = true)
    (hspec : ∀ w ∈ N.nodes, ∀ x ∈ N.nodes,
      (idomAncB idom N.nodes.length w x = true ↔ DominatesB N r w x = true))
    (hlv : ∀ l, l ∈ leaves ↔ l ∈ N.nodes ∧ N.outDeg l = 0)
    (hclose : ∀ e ∈ N.edges, e.1 ∈ N.nodes ∧ e.2 ∈ N.nodes)
    (hr0 : N.inDeg r = 0)
    (u v : Nat) (hu : u ∈ N.nodes) (hsucc : N.succs u = [v])
    (hvnr : N.isReticulation v = false) :
    (aHas stab u = true ↔ isStableIn N stab v = true) := by
  have hedge : (u, v) ∈ N.edges :=
    (mem_succs_iff N u v).mp (by rw [hsucc]; exact List.mem_singleton.mpr rfl)
  have hv : v ∈ N.nodes := (hclose (u, v) hedge).2
  have hvin1 : N.inDeg v = 1 := by
    have hmem : u ∈ N.preds v := (mem_preds_iff N u v).mpr hedge
    have hge := List.length_pos_of_mem hmem
    have hle : N.inDeg v ≤ 1 := by
      unfold Net.isReticulation at hvnr
      simp only [decide_eq_false_iff_not, not_lt] at hvnr
      exact hvnr
    unfold Net.inDeg at hle ⊢
    omega
  obtain ⟨u0, hpv, hedge0⟩ := preds_singleton N v hvin1
  have huu0 : u = u0 := by
    have h := in_edge_unique N v u0 hpv (u, v) hedge rfl
    exact (Prod.ext_iff.mp h).1
  rw [← huu0] at hpv
  have hvner : v ≠ r := by
    intro hc
    rw [hc, hr0] at hvin1
    cases hvin1
  have hDuv : DominatesB N r u v = true := by
    rw [dominatesB_iff]
    intro p hp
    exact walksTo_pred_before N r u v hvner hpv N.nodes.length v p hp
      (walksTo_end_mem N r _ v p hp)
  constructor
  · intro hhas
    unfold isStableIn
    by_cases hleaf : N.isLeafNode v = true
    · rw [if_pos hleaf]
    · rw [if_neg hleaf]
      rcases (hchar u).mp hhas with ⟨x, hx, hanc⟩
      have hxn : x ∈ N.nodes := ((hlv x).mp hx).1
      have hxdeg : N.outDeg x = 0 := ((hlv x).mp hx).2
      have hDux : DominatesB N r u x = true := (hspec u hu x hxn).mp hanc
      have hune : u ≠ x := by
        intro hc
        have hod : N.outDeg u = 1 := by
          unfold Net.outDeg
          rw [hsucc]
          rfl
        rw [hc] at hod
        omega
      have hDvx : DominatesB N r v x = true := by
        rw [dominatesB_iff]
        intro p hp
        have hup : u ∈ p := (dominatesB_iff N r u x).mp hDux p hp
        rcases walksTo_succ_after N r N.nodes.length x p hp u hup hune with ⟨w, hw, hwp⟩
        have hwv : w = v := by
          have hws : w ∈ N.succs u := (mem_succs_iff N u w).mpr hw
          rw [hsucc] at hws
          exact List.mem_singleton.mp hws
        rw [← hwv]
        exact hwp
      exact (hchar v).mpr ⟨x, hx, (hspec v hv x hxn).mpr hDvx⟩
  · intro hstable
    unfold isStableIn at hstable
    by_cases hleaf : N.isLeafNode v = true
    · have hvleaves : v ∈ leaves := by
        rw [hlv]
        refine ⟨hv, ?_⟩
        unfold Net.isLeafNode at hleaf
        simp only [Bool.and_eq_true, decide_eq_true_eq] at hleaf
        exact hleaf.2
      exact (hchar u).mpr ⟨v, hvleaves, (hspec u hu v hv).mpr hDuv⟩
    · rw [if_neg hleaf] at hstable
      rcases (hchar v).mp hstable with ⟨x, hx, hanc⟩
      have hxn : x ∈ N.nodes := ((hlv x).mp hx).1
      have hDvx : DominatesB N r v x = true := (hspec v hv x hxn).mp hanc
      have hDux : DominatesB N r u x = true := by
        rw [dominatesB_iff]
        intro p hp
        have hvp : v ∈ p := (dominatesB_iff N r v x).mp hDvx p hp
        exact walksTo_pred_before N r u v hvner hpv N.nodes.length x p hp hvp
      exact (hchar u).mpr ⟨x, hx, (hspec u hu x hxn).mpr hDux⟩

/-- C3: against the `Phylo.py` stability map of a validated network with
correct immediate dominators, `NumUnstableRoots` stores the number of
reticulations whose single child is a non-reticulation vertex that is not
stable (the code tests stability of the reticulation itself, which
provably coincides with the claimed test on the child), and the boolean
it pushes into the ComponentVisible property is true exactly when that
count is zero. -/
theorem claim_C3_numUnstableRoots (N : Net) (r : Nat) (idom : Nat → Nat)
    (infos : Infos) (hwf : N.WF) (hok : updateInfos N = .ok infos)
    (hroot : infos.root = some r) (hid : IdomSpecHolds N r idom) :
    (unstableRootsOf N (phyloStability N idom infos.leaves) infos.reticulations).length
        = (infos.reticulations.filter
            (claimUnstableCond N (phyloStability N idom infos.leaves))).length ∧
      (cvSideEffect N (phyloStability N idom infos.leaves) infos.reticulations = true ↔
        (infos.reticulations.filter
            (claimUnstableCond N (phyloStability N idom infos.leaves))).length = 0) ∧
      urFinal N (phyloStability N idom infos.leaves) infos.reticulations
        = some (.pyint ((infos.reticulations.filter
            (claimUnstableCond N (phyloStability N idom infos.leaves))).length)) := by
  obtain ⟨hid1, hid2, hid3⟩ := hid
  obtain ⟨hret, hlvs⟩ := updateInfos_tags N infos hok
  set stab := phyloStability N idom infos.leaves with hstabdef
  have hlvnodes : ∀ l ∈ infos.leaves, l ∈ N.nodes := by
    intro l hl
    rw [hlvs] at hl
    exact List.mem_of_mem_filter hl
  have hchar : ∀ w, aHas stab w = true ↔
      ∃ x ∈ infos.leaves, idomAncB idom N.nodes.length w x = true := fun w =>
    phyloStability_aHas_iff N idom infos.leaves hid2 hlvnodes w
  have hlviff : ∀ l, l ∈ infos.leaves ↔ l ∈ N.nodes ∧ N.outDeg l = 0 := by
    intro l
    rw [hlvs, List.mem_filter]
    simp
  have hbd : ∀ v ∈ N.nodes, badDegree N v = false := by
    have hok2 : (updateInfos N).isOk = true := by rw [hok]; rfl
    exact ((infosLoop_ok_iff N N.nodes _).mp ((updateInfos_isOk N).mp hok2).1).1
  have hfind : N.nodes.find? (fun v => N.inDeg v = 0) = some r := by
    have h := (updateInfos_root N infos hok).1
    rw [hroot] at h
    exact h.symm
  have hr0 : N.inDeg r = 0 := by
    have h := List.find?_some hfind
    simpa using h
  have hseed : ∀ w ∈ N.nodes, N.outDeg w = 0 → aHas stab w = true := by
    intro w hw hdeg
    exact (hchar w).mpr ⟨w, (hlviff w).mpr ⟨hw, hdeg⟩, idomAncB_refl idom _ w⟩
  have hretmem : ∀ u ∈ infos.reticulations, u ∈ N.nodes ∧ 1 < N.inDeg u := by
    intro u hu
    rw [hret] at hu
    refine ⟨List.mem_of_mem_filter hu, ?_⟩
    have h := List.of_mem_filter hu
    simpa using h
  have hsucc1 : ∀ u ∈ infos.reticulations, isStableIn N stab u = false →
      N.succs u = [childOf N u] ∧ (u, childOf N u) ∈ N.edges := by
    intro u hu hst
    obtain ⟨hun, hudeg⟩ := hretmem u hu
    have hnotleaf : N.isLeafNode u = false := by
      unfold Net.isLeafNode
      have h1 : ¬ N.inDeg u = 1 := by omega
      simp [h1]
    have hhas : aHas stab u = false := by
      unfold isStableIn at hst
      rw [hnotleaf] at hst
      simpa using hst
    have hodne : N.outDeg u ≠ 0 := by
      intro hc
      rw [hseed u hun hc] at hhas
      cases hhas
    have hod1 : N.outDeg u = 1 := by
      have hnb : ¬ 1 < N.outDeg u := by
        intro hgt
        have hbt : badDegree N u = true :=
          (badDegree_eq_true_iff N u).mpr (Or.inr ⟨hudeg, hgt⟩)
        rw [hbd u hun] at hbt
        cases hbt
      omega
    obtain ⟨w, hw, hwedge⟩ := succs_singleton N u hod1
    have hcw : childOf N u = w := by unfold childOf; rw [hw]; rfl
    rw [hcw]
    exact ⟨hw, hwedge⟩
  have hpoint : ∀ u ∈ infos.reticulations,
      codeUnstableCond N stab u = claimUnstableCond N stab u := by
    intro u hu
    obtain ⟨hun, hudeg⟩ := hretmem u hu
    have hnotleaf : N.isLeafNode u = false := by
      unfold Net.isLeafNode
      have h1 : ¬ N.inDeg u = 1 := by omega
      simp [h1]
    have hstu : isStableIn N stab u = aHas stab u := by
      unfold isStableIn
      rw [hnotleaf]
      simp
    have houtle : ¬ 1 < N.outDeg u := by
      intro hgt
      have hbt : badDegree N u = true :=
        (badDegree_eq_true_iff N u).mpr (Or.inr ⟨hudeg, hgt⟩)
      rw [hbd u hun] at hbt
      cases hbt
    by_cases hod : N.outDeg u = 0
    · have hnil : N.succs u = [] := by
        unfold Net.outDeg at hod
        exact List.length_eq_zero.mp hod
      have hstab2 : aHas stab u = true := hseed u hun hod
      unfold codeUnstableCond claimUnstableCond
      rw [hstu, hstab2, hnil]
      simp
    · have hod1 : N.outDeg u = 1 := by omega
      obtain ⟨v, hsv, hedge⟩ := succs_singleton N u hod1
      have hcv : childOf N u = v := by unfold childOf; rw [hsv]; rfl
      cases hrv : N.isReticulation v
      · have hiff := aHas_iff_child_stable N r idom infos.leaves stab hchar hid3
          hlviff hwf.2.2 hr0 u v hun hsv hrv
        have heq : aHas stab u = isStableIn N stab v := bool_eq_of_iff hiff
        unfold codeUnstableCond claimUnstableCond
        rw [hcv, hstu, heq, hsv]
        cases hsv2 : isStableIn N stab v <;> simp [hrv, hsv2]
      · unfold codeUnstableCond claimUnstableCond
        rw [hcv, hrv]
        simp
  have hkey : unstableRootsOf N stab infos.reticulations =
      (infos.reticulations.filter (codeUnstableCond N stab)).foldl
        (fun acc u => setInsert acc (childOf N u)) [] := by
    unfold unstableRootsOf
    refine foldl_guard_eq_filter (codeUnstableCond N stab)
      (fun acc u => setInsert acc (childOf N u)) _ ?_ infos.reticulations []
    intro acc u
    unfold codeUnstableCond
    cases hst : isStableIn N stab u
    · cases hrv : N.isReticulation (childOf N u) <;> simp [hst, hrv]
    · simp [hst]
  have hLnodup : (infos.reticulations.filter (codeUnstableCond N stab)).Nodup := by
    apply List.Nodup.filter
    rw [hret]
    exact hwf.1.filter _
  have hmemfacts : ∀ a ∈ infos.reticulations.filter (codeUnstableCond N stab),
      (a, childOf N a) ∈ N.edges ∧ N.isReticulation (childOf N a) = false := by
    intro a ha
    have ham := List.mem_of_mem_filter ha
    have hac := List.of_mem_filter ha
    unfold codeUnstableCond at hac
    simp only [Bool.and_eq_true] at hac
    obtain ⟨h1, h2⟩ := hac
    have h1b : isStableIn N stab a = false := by
      cases hsa : isStableIn N stab a
      · rfl
      · simp [hsa] at h1
    have h2b : N.isReticulation (childOf N a) = false := by
      cases hra : N.isReticulation (childOf N a)
      · rfl
      · simp [hra] at h2
    exact ⟨(hsucc1 a ham h1b).2, h2b⟩
  have hinj : List.Pairwise (fun a b => childOf N a ≠ childOf N b)
      (infos.reticulations.filter (codeUnstableCond N stab)) := by
    refine List.Pairwise.imp_of_mem ?_ hLnodup
    intro a b ha hb hne hcontra
    obtain ⟨hea, hra⟩ := hmemfacts a ha
    obtain ⟨heb, hrb⟩ := hmemfacts b hb
    have hpa : a ∈ N.preds (childOf N a) := (mem_preds_iff N a _).mpr hea
    have hpb : b ∈ N.preds (childOf N a) :=
      (mem_preds_iff N b _).mpr (hcontra ▸ heb)
    have hvle : N.inDeg (childOf N a) ≤ 1 := by
      unfold Net.isReticulation at hra
      simp only [decide_eq_false_iff_not, not_lt] at hra
      exact hra
    exact hne (mem_eq_of_length_le_one hvle hpa hpb)
  have hcount1 : (unstableRootsOf N stab infos.reticulations).length =
      (infos.reticulations.filter (codeUnstableCond N stab)).length := by
    rw [hkey]
    rw [foldl_setInsert_fresh (childOf N)
      (infos.reticulations.filter (codeUnstableCond N stab)) []
      (by intro u hu hmem; cases hmem) hinj]
    simp
  have hfiltereq : infos.reticulations.filter (codeUnstableCond N stab) =
      infos.reticulations.filter (claimUnstableCond N stab) :=
    List.filter_congr hpoint
  refine ⟨?_, ?_, ?_⟩
  · rw [hcount1, hfiltereq]
  · unfold cvSideEffect
    rw [list_isEmpty_iff_length, hcount1, hfiltereq]
  · rw [urFinal_eq, hcount1, hfiltereq]

/-- The C3 witness network: root 0 over tree vertices 1 and 2, a
reticulation 3 below both with leaf child 4, and side leaves 5 and 6. -/
def c3Net : Net :=
  ⟨[0, 1, 2, 3, 4, 5, 6], [(0, 1), (0, 2), (1, 3), (2, 3), (3, 4), (1, 5), (2, 6)]⟩

theorem claim_C3_numUnstableRoots_witness :
    (unstableRootsOf c3Net
        (phyloStability c3Net (idomOf c3Net 0) [4, 5, 6]) [3]).length
      = (([3] : List Nat).filter
          (claimUnstableCond c3Net
            (phyloStability c3Net (idomOf c3Net 0) [4, 5, 6]))).length :=
  (claim_C3_numUnstableRoots c3Net 0 (idomOf c3Net 0) ⟨some 0, some 2, [3], [4, 5, 6]⟩
    (by decide) (by decide) rfl (by decide)).1

/-! ## C4 — `max_per_block` over biconnected components versus the
2-edge-connected reading of the claim

`Level.check` runs `max_per_block(reticulations)`, which intersects the
vertex set with every `networkx.biconnected_components` block of size
above two of the undirected graph.  Biconnected components are the
maximal 2-VERTEX-connected pieces; the claim speaks of maximal
2-EDGE-connected components.  The two partitions differ as soon as two
cycles share a cut vertex. -/

/-- Adjacency of `to_undirected()`. -/
def uadjB (N : Net) (a b : Nat) : Bool :=
  decide ((a, b) ∈ N.edges ∨ (b, a) ∈ N.edges)

/-- One breadth step of undirected reachability inside the vertex set
`S`. -/
def reachStep (N : Net) (S : List Nat) (cur : List Nat) : List Nat :=
  S.filter (fun v => decide (v ∈ cur) || cur.any (fun u => uadjB N u v))

/-- Iterated reachability; `|S|` rounds saturate. -/
def reachIter (N : Net) (S : List Nat) : Nat → List Nat → List Nat
  | 0, cur => cur
  | n + 1, cur => reachIter N S n (reachStep N S cur)

/-- `x` reaches `y` inside `S` in the undirected graph. -/
def connB (N : Net) (S : List Nat) (x y : Nat) : Bool :=
  decide (y ∈ reachIter N S S.length [x])

/-- Edges `e` and `f` lie in a common biconnected component: no removal
of a single vertex separates their surviving endpoints.  On the connected
validated inputs of the tool this is the block relation whose classes
`networkx.biconnected_components` returns (two distinct edges share a
block exactly when they lie on a common simple cycle, exactly when no cut
vertex of the block-cut tree separates them). -/
def edgesSameBlockB (N : Net) (e f : Nat × Nat) : Bool :=
  decide (e = f) ||
    N.nodes.all (fun w =>
      (([e.1, e.2].filter (fun x => decide (x ≠ w)))).any (fun x =>
        (([f.1, f.2].filter (fun y => decide (y ≠ w)))).any (fun y =>
          connB N (N.nodes.erase w) x y)))

/-- The vertex set of the biconnected component containing edge `e`. -/
def blockOfEdge (N : Net) (e : Nat × Nat) : List Nat :=
  (N.edges.filter (fun f => edgesSameBlockB N e f)).foldl
    (fun acc f => setInsert (setInsert acc f.1) f.2) []

/-- The biconnected components of the undirected graph, one per edge
(vertex sets; the repetitions are harmless to `max_per_block`). -/
def ublocksOf (N : Net) : List (List Nat) := N.edges.map (blockOfEdge N)

/-- An undirected bridge: removing the edge (both directions)
disconnects its endpoints. -/
def bridgeB (N : Net) (e : Nat × Nat) : Bool :=
  !connB ⟨N.nodes, N.edges.filter (fun f => decide (f ≠ e ∧ f ≠ (e.2, e.1)))⟩
    N.nodes e.1 e.2

/-- The maximal 2-edge-connected components: connected classes after
deleting every bridge, one per vertex — modelled from the claim's
wording. -/
def teccComponents (N : Net) : List (List Nat) :=
  N.nodes.map (fun v =>
    reachIter ⟨N.nodes, N.edges.filter (fun e => !bridgeB N e)⟩
      N.nodes N.nodes.length [v])

/-- `max_per_block`: intersect the vertex set with every block of size
above two and return the largest intersection size; python's
`max(...) if lists_per_block else 0` equals the fold from `0`. -/
def maxPerBlock (vset : List Nat) (blocks : List (List Nat)) : Nat :=
  (((blocks.filter (fun B => decide (2 < B.length))).map
    (fun B => vset.filter (fun v => decide (v ∈ B)))).map List.length).foldl Nat.max 0

/-- The C4 network: the directed cycles 0-1-3-2 and 1-4-6-5 share the
tree vertex 1, with leaves 7, 8, 9 keeping every degree legal and the
reticulations 3 and 6 sitting in different biconnected components of one
2-edge-connected component. -/
def c4Net : Net :=
  ⟨[0, 1, 2, 3, 4, 5, 6, 7, 8, 9],
   [(0, 1), (0, 2), (1, 3), (2, 3), (1, 4), (1, 5), (4, 6), (5, 6), (2, 7), (4, 8), (5, 9)]⟩

set_option maxRecDepth 10000 in
/-- C4 as stated is false: on the validated `c4Net` the code's level —
`max_per_block` over biconnected components of size above two — is 1,
while the maximum number of reticulations in a maximal 2-edge-connected
component of size above two is 2, because the two blocks share the cut
vertex 1 and so merge into one 2-edge-connected component. -/
theorem claim_C4_counterexample :
    updateInfos c4Net = .ok ⟨some 0, some 0, [3, 6], [3, 6, 7, 8, 9]⟩ ∧
      maxPerBlock [3, 6] (ublocksOf c4Net) = 1 ∧
      maxPerBlock [3, 6] (teccComponents c4Net) = 2 := by
  decide

theorem foldl_max_init_le (l : List Nat) : ∀ acc, acc ≤ l.foldl Nat.max acc := by
  induction l with
  | nil => intro acc; exact Nat.le_refl acc
  | cons a rest ih =>
      intro acc
      rw [List.foldl_cons]
      exact Nat.le_trans (Nat.le_max_left acc a) (ih (Nat.max acc a))

theorem mem_le_foldl_max (l : List Nat) : ∀ acc, ∀ a ∈ l, a ≤ l.foldl Nat.max acc := by
  induction l with
  | nil => intro acc a ha; cases ha
  | cons b rest ih =>
      intro acc a ha
      rw [List.foldl_cons]
      rcases List.mem_cons.mp ha with rfl | ha
      · exact Nat.le_trans (Nat.le_max_right acc a) (foldl_max_init_le rest (Nat.max acc a))
      · exact ih (Nat.max acc b) a ha

theorem foldl_max_le {c : Nat} (l : List Nat) : ∀ acc, acc ≤ c → (∀ a ∈ l, a ≤ c) →
    l.foldl Nat.max acc ≤ c := by
  induction l with
  | nil => intro acc hacc _; exact hacc
  | cons a rest ih =>
      intro acc hacc hall
      rw [List.foldl_cons]
      exact ih (Nat.max acc a)
        (Nat.max_le.mpr ⟨hacc, hall a (List.mem_cons_self a rest)⟩)
        (fun b hb => hall b (List.mem_cons_of_mem a hb))

theorem length_filter_le_of_imp {α : Type} {l : List α} {p q : α → Bool}
    (h : ∀ e ∈ l, p e = true → q e = true) :
    (l.filter p).length ≤ (l.filter q).length := by
  induction l with
  | nil => exact Nat.le_refl 0
  | cons e rest ih =>
      have hrest : ∀ x ∈ rest, p x = true → q x = true :=
        fun x hx => h x (List.mem_cons_of_mem e hx)
      by_cases hp : p e = true
      · rw [List.filter_cons_of_pos hp,
          List.filter_cons_of_pos (h e (List.mem_cons_self e rest) hp)]
        simp only [List.length_cons]
        exact Nat.succ_le_succ (ih hrest)
      · rw [List.filter_cons_of_neg (by simpa using hp)]
        by_cases hq : q e = true
        · rw [List.filter_cons_of_pos hq]
          simp only [List.length_cons]
          exact Nat.le_succ_of_le (ih hrest)
        · rw [List.filter_cons_of_neg (by simpa using hq)]
          exact ih hrest

/-- C4 amended: `max_per_block` is monotone in the block decomposition —
whenever every biconnected block of size above two is contained in some
listed 2-edge-connected component of size above two (which the block-cut
structure always provides), the code's level is at most the
2-edge-connected level of the claim; the counterexample shows the
inequality can be strict, so the claimed equality must be weakened to
this bound (or the claim reworded to biconnected components). -/
theorem claim_C4_amended_level_le (vset : List Nat) (blocks comps : List (List Nat))
    (hsub : ∀ B ∈ blocks, 2 < B.length →
      ∃ C ∈ comps, 2 < C.length ∧ ∀ v ∈ B, v ∈ C) :
    maxPerBlock vset blocks ≤ maxPerBlock vset comps := by
  unfold maxPerBlock
  refine foldl_max_le _ _ (Nat.zero_le _) ?_
  intro a ha
  rcases List.mem_map.mp ha with ⟨L, hL, rfl⟩
  rcases List.mem_map.mp hL with ⟨B, hB, rfl⟩
  have hBmem := List.mem_of_mem_filter hB
  have hBlen : 2 < B.length := by simpa using List.of_mem_filter hB
  rcases hsub B hBmem hBlen with ⟨C, hC, hClen, hCsub⟩
  have hle : (vset.filter (fun v => decide (v ∈ B))).length ≤
      (vset.filter (fun v => decide (v ∈ C))).length := by
    apply length_filter_le_of_imp
    intro v hv hvB
    simp only [decide_eq_true_eq] at hvB ⊢
    exact hCsub v hvB
  have hmem2 : (vset.filter (fun v => decide (v ∈ C))).length ∈
      ((comps.filter (fun B => decide (2 < B.length))).map
        (fun B => vset.filter (fun v => decide (v ∈ B)))).map List.length := by
    apply List.mem_map.mpr
    refine ⟨vset.filter (fun v => decide (v ∈ C)), ?_, rfl⟩
    apply List.mem_map.mpr
    exact ⟨C, List.mem_filter.mpr ⟨hC, by simpa using hClen⟩, rfl⟩
  exact Nat.le_trans hle (mem_le_foldl_max _ 0 _ hmem2)

set_option maxRecDepth 10000 in
theorem claim_C4_amended_level_le_witness :
    maxPerBlock [3, 6] (ublocksOf c4Net) ≤ maxPerBlock [3, 6] (teccComponents c4Net) :=
  claim_C4_amended_level_le [3, 6] (ublocksOf c4Net) (teccComponents c4Net) (by decide)

/-! ## C9 — `ShortestPath` and the pareto filter

`common_parent_distances(u)` collects, for every vertex reaching all
parents of `u`, the vector of shortest upward distances to the parents
(one coordinate per parent, in parent order), and runs `pareto_mins` on
the vectors.  `pareto_cmp` fixes its return value at the comparison of
coordinate 0 and only ever aborts to `0` on a contradicting later
coordinate, so two vectors tying on coordinate 0 are never comparable and
a dominated vector survives the filter.  `check` folds max/min/max over
the surviving vectors into `sp`, `srh` and `brh`. -/

/-- Python 2 `cmp`. -/
def cmpNat (a b : Nat) : Int := if a < b then -1 else if b < a then 1 else 0

/-- `pareto_cmp`: the result is `cmp(x[0], y[0])`, returned unless some
later coordinate compares against it (`comp + result == 0`), in which
case `0` is returned; `result` is never updated inside the loop. -/
def pareto_cmp (x y : List Nat) : Int :=
  if (List.range (x.length - 1)).any (fun j =>
      cmpNat (x.getD (j + 1) 0) (y.getD (j + 1) 0) ≠ 0 ∧
        cmpNat (x.getD (j + 1) 0) (y.getD (j + 1) 0) + cmpNat (x.getD 0 0) (y.getD 0 0) = 0)
    then 0
  else cmpNat (x.getD 0 0) (y.getD 0 0)

/-- `tmp = result.pop(); if i < len(result): result[i] = tmp`. -/
def popSwap (result : List (List Nat)) (i : Nat) : List (List Nat) :=
  let tmp := result.getLastD []
  let res2 := result.dropLast
  if i < res2.length then res2.set i tmp else res2

/-- One index of the inner loop of `pareto_mins` (the indices of the
python `xrange` are always in bounds; the guard makes the embedding
total). -/
def paretoStepIdx (L : List Nat) (st : List (List Nat) × Bool) (i : Nat) :
    List (List Nat) × Bool :=
  if i < st.1.length then
    let c := pareto_cmp (st.1.getD i []) L
    if c = 1 then (popSwap st.1 i, st.2)
    else if c = -1 then (st.1, false)
    else st
  else st

/-- The inner loop, walking indices `k-1, …, 0` downwards. -/
def paretoInner (L : List Nat) : Nat → List (List Nat) × Bool → List (List Nat) × Bool
  | 0, st => st
  | k + 1, st => paretoInner L k (paretoStepIdx L st k)

/-- One outer iteration of `pareto_mins`: scan the current result from
its top index down, then append `L` when `do_add` survived. -/
def paretoStep (result : List (List Nat)) (L : List Nat) : List (List Nat) :=
  let st := paretoInner L result.length (result, true)
  if st.2 then st.1 ++ [L] else st.1

/-- `pareto_mins`. -/
def pareto_mins (X : List (List Nat)) : List (List Nat) :=
  X.foldl paretoStep []

/-- Componentwise `x ≤ y` (over the coordinates of `x`). -/
def paretoLeB (x y : List Nat) : Bool :=
  (List.range x.length).all (fun j => decide (x.getD j 0 ≤ y.getD j 0))

/-- Modelled from the claim: `x` is componentwise closer-or-equal with at
least one coordinate strictly closer. -/
def paretoLtB (x y : List Nat) : Bool := paretoLeB x y && !paretoLeB y x

/-- Modelled from the claim: the truly Pareto-minimal vectors. -/
def trueParetoMins (X : List (List Nat)) : List (List Nat) :=
  X.filter (fun y => X.all (fun z => !paretoLtB z y))

/-- `min` of a python-nonempty list (`0` as junk default on `[]`). -/
def listMin : List Nat → Nat
  | [] => 0
  | a :: rest => rest.foldl Nat.min a

/-- `max` of a python-nonempty list (`0` as junk default on `[]`). -/
def listMax : List Nat → Nat
  | [] => 0
  | a :: rest => rest.foldl Nat.max a

/-- Vertices reachable from `x` along at most `fuel` directed edges. -/
def reachDown (N : Net) : Nat → Nat → List Nat
  | 0, x => [x]
  | f + 1, x =>
      (reachDown N f x).foldl (fun acc v => (N.succs v).foldl setInsert acc)
        (reachDown N f x)

/-- The length of a shortest directed path from `x` down to `v` (`none`
when unreachable): the first breadth level containing `v` — the distance
that the reversed `networkx.bfs_tree` from `v` records for the ancestor
`x` in `assign_distances_tree`. -/
def distB (N : Net) (x v : Nat) : Option Nat :=
  (List.range (N.nodes.length + 1)).find? (fun f => decide (v ∈ reachDown N f x))

/-- The distance vectors of `common_parent_distances(u)` before the
pareto filter: one vector per vertex reaching every parent of `u`,
coordinates in parent order.  Python keeps these in first-visit order of
the parents' BFS trees; the later aggregations are invariant under this
order for the minimum-based metrics in general and, for the
counterexample network, under every candidate order. -/
def commonParentVectors (N : Net) (u : Nat) : List (List Nat) :=
  (N.nodes.filter (fun x => (N.preds u).all (fun p => (distB N x p).isSome))).map
    (fun x => (N.preds u).map (fun p => (distB N x p).getD 0))

/-- `ShortestPath.check`: one pass over the vertices of in-degree above
one folding `(sp, srh, brh)`. -/
def shortestPathVals (N : Net) : Nat × Nat × Nat :=
  N.nodes.foldl
    (fun (vals : Nat × Nat × Nat) u =>
      if 1 < N.inDeg u then
        let dists := pareto_mins (commonParentVectors N u)
        (Nat.max vals.1 (listMin (dists.map List.sum)),
          Nat.max vals.2.1 (listMin (dists.map listMin)),
          Nat.max vals.2.2 (listMax (dists.map listMax)))
      else vals)
    (0, 0, 0)

/-- Modelled from the claim: the same aggregation over the truly
Pareto-minimal ancestors. -/
def claimShortestPathVals (N : Net) : Nat × Nat × Nat :=
  N.nodes.foldl
    (fun (vals : Nat × Nat × Nat) u =>
      if 1 < N.inDeg u then
        let dists := trueParetoMins (commonParentVectors N u)
        (Nat.max vals.1 (listMin (dists.map List.sum)),
          Nat.max vals.2.1 (listMin (dists.map listMin)),
          Nat.max vals.2.2 (listMax (dists.map listMax)))
      else vals)
    (0, 0, 0)

/-- The C9 network: the reticulation 7 has parents 3 and 6; vertex 1
reaches them at distances (1, 2), vertex 2 at (1, 3) — dominated, but
tying on the first coordinate — and the root at (2, 3). -/
def c9Net : Net :=
  ⟨[0, 1, 2, 3, 4, 5, 6, 7, 8, 9],
   [(0, 1), (0, 2), (1, 3), (2, 3), (1, 5), (2, 4), (4, 5), (4, 8), (5, 6), (3, 7),
    (6, 7), (6, 9)]⟩

set_option maxRecDepth 4000 in
/-- C9 as stated is false for the BigReticulationHeight: on the validated
`c9Net`, `pareto_cmp` never compares the vectors (1, 2) and (1, 3) of the
candidate ancestors 1 and 2 of reticulation 7 (their first coordinates
tie), so the dominated (1, 3) survives `pareto_mins` — under every
ordering of the three candidate vectors — and `brh` becomes 3, while the
truly Pareto-minimal ancestors give 2; `sp` and `srh` agree on this
network, as the amended claim proves they always do. -/
theorem claim_C9_counterexample :
    updateInfos c9Net = .ok ⟨some 0, some 2, [3, 5, 7], [7, 8, 9]⟩ ∧
      commonParentVectors c9Net 7 = [[2, 3], [1, 2], [1, 3]] ∧
      pareto_mins (commonParentVectors c9Net 7) = [[1, 2], [1, 3]] ∧
      trueParetoMins (commonParentVectors c9Net 7) = [[1, 2]] ∧
      shortestPathVals c9Net = (3, 1, 3) ∧
      claimShortestPathVals c9Net = (3, 1, 2) ∧
      ([[[2, 3], [1, 2], [1, 3]], [[2, 3], [1, 3], [1, 2]], [[1, 2], [2, 3], [1, 3]],
        [[1, 2], [1, 3], [2, 3]], [[1, 3], [2, 3], [1, 2]], [[1, 3], [1, 2], [2, 3]]].all
          (fun Y => listMax ((pareto_mins Y).map listMax) = 3)) = true := by
  decide

theorem cmpNat_eq_one {a b : Nat} : cmpNat a b = 1 ↔ b < a := by
  unfold cmpNat
  by_cases h1 : a < b
  · rw [if_pos h1]
    constructor
    · intro hc; exact absurd hc (by decide)
    · intro hb; omega
  · rw [if_neg h1]
    by_cases h2 : b < a
    · rw [if_pos h2]; simp [h2]
    · rw [if_neg h2]
      constructor
      · intro hc; exact absurd hc (by decide)
      · intro hb; exact absurd hb h2

theorem cmpNat_eq_negone {a b : Nat} : cmpNat a b = -1 ↔ a < b := by
  unfold cmpNat
  by_cases h1 : a < b
  · rw [if_pos h1]; simp [h1]
  · rw [if_neg h1]
    by_cases h2 : b < a
    · rw [if_pos h2]
      constructor
      · intro hc; exact absurd hc (by decide)
      · intro hb; exact absurd hb h1
    · rw [if_neg h2]
      constructor
      · intro hc; exact absurd hc (by decide)
      · intro hb; exact absurd hb h1

/-- A comparison verdict `1` means `y` is componentwise at most `x` (with
the first coordinate strictly smaller). -/
theorem pareto_cmp_one_le {x y : List Nat} (h : pareto_cmp x y = 1) :
    ∀ j < x.length, y.getD j 0 ≤ x.getD j 0 := by
  unfold pareto_cmp at h
  split at h
  · exact absurd h (by decide)
  · rename_i hany
    intro j hj
    cases j with
    | zero =>
        have := cmpNat_eq_one.mp h
        omega
    | succ j =>
        by_contra hcon
        have hlt : x.getD (j + 1) 0 < y.getD (j + 1) 0 := by omega
        apply hany
        apply List.any_eq_true.mpr
        refine ⟨j, List.mem_range.mpr (by omega), ?_⟩
        rw [cmpNat_eq_negone.mpr hlt, h]
        decide

theorem pareto_cmp_one_strict {x y : List Nat} (h : pareto_cmp x y = 1) :
    y.getD 0 0 < x.getD 0 0 := by
  unfold pareto_cmp at h
  split at h
  · exact absurd h (by decide)
  · exact cmpNat_eq_one.mp h

/-- A comparison verdict `-1` means `x` is componentwise at most `y`
(with the first coordinate strictly smaller). -/
theorem pareto_cmp_negone_le {x y : List Nat} (h : pareto_cmp x y = -1) :
    ∀ j < x.length, x.getD j 0 ≤ y.getD j 0 := by
  unfold pareto_cmp at h
  split at h
  · exact absurd h (by decide)
  · rename_i hany
    intro j hj
    cases j with
    | zero =>
        have := cmpNat_eq_negone.mp h
        omega
    | succ j =>
        by_contra hcon
        have hlt : y.getD (j + 1) 0 < x.getD (j + 1) 0 := by omega
        apply hany
        apply List.any_eq_true.mpr
        refine ⟨j, List.mem_range.mpr (by omega), ?_⟩
        rw [cmpNat_eq_one.mpr hlt, h]
        decide

theorem pareto_cmp_negone_strict {x y : List Nat} (h : pareto_cmp x y = -1) :
    x.getD 0 0 < y.getD 0 0 := by
  unfold pareto_cmp at h
  split at h
  · exact absurd h (by decide)
  · exact cmpNat_eq_negone.mp h

theorem paretoLeB_iff {x y : List Nat} :
    paretoLeB x y = true ↔ ∀ j < x.length, x.getD j 0 ≤ y.getD j 0 := by
  simp [paretoLeB, List.all_eq_true, List.mem_range]

theorem paretoLeB_refl (x : List Nat) : paretoLeB x x = true :=
  paretoLeB_iff.mpr (fun _ _ => Nat.le_refl _)

theorem paretoLeB_trans {x y z : List Nat} (hxy : x.length ≤ y.length)
    (h1 : paretoLeB x y = true) (h2 : paretoLeB y z = true) :
    paretoLeB x z = true := by
  rw [paretoLeB_iff] at h1 h2 ⊢
  intro j hj
  exact Nat.le_trans (h1 j hj) (h2 j (by omega))

theorem leB_of_cmp_one {x y : List Nat} (hlen : y.length ≤ x.length)
    (h : pareto_cmp x y = 1) : paretoLeB y x = true :=
  paretoLeB_iff.mpr (fun j hj => pareto_cmp_one_le h j (by omega))

theorem leB_of_cmp_negone {x y : List Nat} (h : pareto_cmp x y = -1) :
    paretoLeB x y = true :=
  paretoLeB_iff.mpr (fun j hj => pareto_cmp_negone_le h j hj)

theorem ltB_of_cmp_one {x y : List Nat} (hx : 0 < x.length)
    (hlen : y.length ≤ x.length) (h : pareto_cmp x y = 1) :
    paretoLtB y x = true := by
  unfold paretoLtB
  rw [leB_of_cmp_one hlen h]
  have hs := pareto_cmp_one_strict h
  have : paretoLeB x y = false := by
    cases hle : paretoLeB x y
    · rfl
    · have := paretoLeB_iff.mp hle 0 hx
      omega
  rw [this]
  rfl

theorem ltB_of_cmp_negone {x y : List Nat} (hy : 0 < y.length)
    (h : pareto_cmp x y = -1) : paretoLtB x y = true := by
  unfold paretoLtB
  rw [leB_of_cmp_negone h]
  have hs := pareto_cmp_negone_strict h
  have : paretoLeB y x = false := by
    cases hle : paretoLeB y x
    · rfl
    · have := paretoLeB_iff.mp hle 0 hy
      omega
  rw [this]
  rfl

theorem getLastD_mem : ∀ (l : List (List Nat)) (d : List Nat), l ≠ [] → l.getLastD d ∈ l := by
  intro l
  induction l with
  | nil => intro d h; exact absurd rfl h
  | cons a rest ih =>
      intro d _
      show List.getLastD (a :: rest) d ∈ a :: rest
      rw [List.getLastD_cons]
      cases hr : rest with
      | nil => simp [List.getLastD]
      | cons b rest2 =>
          have := ih a (by rw [hr]; intro hc; cases hc)
          rw [hr] at this
          rw [← hr] at this ⊢
          exact List.mem_cons_of_mem a this

theorem popSwap_subset (result : List (List Nat)) (i : Nat) :
    ∀ z ∈ popSwap result i, z ∈ result := by
  intro z hz0
  have hz : z ∈ (if i < result.dropLast.length
      then result.dropLast.set i (result.getLastD []) else result.dropLast) := hz0
  split at hz
  · rcases List.mem_or_eq_of_mem_set hz with h | h
    · exact List.dropLast_subset result h
    · cases hres : result with
      | nil => rw [hres] at hz; simp [List.dropLast] at hz
      | cons a rest =>
          rw [h]
          rw [hres]
          exact getLastD_mem (a :: rest) [] (by intro hc; cases hc)
  · exact List.dropLast_subset result hz

theorem getD_mem_of_lt (result : List (List Nat)) (i : Nat) (hi : i < result.length) :
    result.getD i [] ∈ result := by
  rw [List.getD_eq_getElem?_getD, List.getElem?_eq_getElem hi]
  exact List.getElem_mem hi

/-- Dropping index `i` by pop-and-swap keeps every other value: a member
of the original list survives or is the value at index `i`. -/
theorem mem_popSwap_or (result : List (List Nat)) (i : Nat) (hi : i < result.length) :
    ∀ z ∈ result, z ∈ popSwap result i ∨ z = result.getD i [] := by
  intro z hz
  rcases List.mem_iff_getElem.mp hz with ⟨j, hj, hje⟩
  by_cases hji : j = i
  · right
    rw [← hje, List.getD_eq_getElem?_getD, List.getElem?_eq_getElem hi]
    subst hji
    rfl
  · left
    show z ∈ (if i < result.dropLast.length
        then result.dropLast.set i (result.getLastD []) else result.dropLast)
    have hlen2 : result.dropLast.length = result.length - 1 := List.length_dropLast result
    by_cases hjlast : j = result.length - 1
    · have hilt : i < result.dropLast.length := by omega
      rw [if_pos hilt]
      have htmp : result.getLastD [] = z := by
        rw [← hje, List.getLastD_eq_getLast?, List.getLast?_eq_getElem?,
          List.getElem?_eq_getElem (by omega : result.length - 1 < result.length)]
        subst hjlast
        rfl
      rw [htmp]
      exact List.mem_iff_getElem.mpr ⟨i, by rw [List.length_set]; exact hilt,
        List.getElem_set_self _⟩
    · have hjlt : j < result.dropLast.length := by omega
      have hdz : result.dropLast[j] = z := by
        rw [List.getElem_dropLast]
        exact hje
      split
      · refine List.mem_iff_getElem.mpr ⟨j, by rw [List.length_set]; exact hjlt, ?_⟩
        rw [List.getElem_set_ne (fun hc => hji hc.symm)]
        exact hdz
      · rw [← hdz]
        exact List.getElem_mem _

/-- Invariants of the inner loop: values never appear from nowhere, a
value disappears only when its comparison verdict was `1`, and `do_add`
turns false only on a surviving witness with verdict `-1`. -/
theorem paretoInner_facts (L : List Nat) :
    ∀ (k : Nat) (result : List (List Nat)) (da : Bool),
      (∀ z ∈ (paretoInner L k (result, da)).1, z ∈ result) ∧
      (∀ z ∈ result, z ∈ (paretoInner L k (result, da)).1 ∨ pareto_cmp z L = 1) ∧
      ((paretoInner L k (result, da)).2 = false →
        da = false ∨ ∃ x ∈ (paretoInner L k (result, da)).1, pareto_cmp x L = -1) := by
  intro k
  induction k with
  | zero =>
      intro result da
      exact ⟨fun z hz => hz, fun z hz => Or.inl hz, fun h => Or.inl h⟩
  | succ k ih =>
      intro result da
      by_cases hk : k < result.length
      · have hgd : result.getD k [] = result[k] := by
          rw [List.getD_eq_getElem?_getD, List.getElem?_eq_getElem hk]
          rfl
        by_cases hc1 : pareto_cmp (result.getD k []) L = 1
        · have hc1e : pareto_cmp (result[k]) L = 1 := by rw [← hgd]; exact hc1
          have hstep : paretoStepIdx L (result, da) k = (popSwap result k, da) := by
            simp [paretoStepIdx, hk, hc1e]
          have hred : paretoInner L (k + 1) (result, da)
              = paretoInner L k (popSwap result k, da) := by
            show paretoInner L k (paretoStepIdx L (result, da) k) = _
            rw [hstep]
          rw [hred]
          obtain ⟨ih1, ih2, ih3⟩ := ih (popSwap result k) da
          refine ⟨?_, ?_, ?_⟩
          · exact fun z hz => popSwap_subset result k z (ih1 z hz)
          · intro z hz
            rcases mem_popSwap_or result k hk z hz with h | h
            · exact ih2 z h
            · exact Or.inr (h ▸ hc1)
          · exact ih3
        · have hc1e : ¬ pareto_cmp (result[k]) L = 1 := by rw [← hgd]; exact hc1
          by_cases hcm : pareto_cmp (result.getD k []) L = -1
          · have hcme : pareto_cmp (result[k]) L = -1 := by rw [← hgd]; exact hcm
            have hstep : paretoStepIdx L (result, da) k = (result, false) := by
              simp [paretoStepIdx, hk, hc1e, hcme]
            have hred : paretoInner L (k + 1) (result, da)
                = paretoInner L k (result, false) := by
              show paretoInner L k (paretoStepIdx L (result, da) k) = _
              rw [hstep]
            rw [hred]
            obtain ⟨ih1, ih2, ih3⟩ := ih result false
            refine ⟨ih1, ih2, ?_⟩
            intro _
            have hx0 : result.getD k [] ∈ result := getD_mem_of_lt result k hk
            rcases ih2 (result.getD k []) hx0 with h | h
            · exact Or.inr ⟨result.getD k [], h, hcm⟩
            · rw [h] at hcm
              exact absurd hcm (by decide)
          · have hcme : ¬ pareto_cmp (result[k]) L = -1 := by rw [← hgd]; exact hcm
            have hstep : paretoStepIdx L (result, da) k = (result, da) := by
              simp [paretoStepIdx, hk, hc1e, hcme]
            have hred : paretoInner L (k + 1) (result, da)
                = paretoInner L k (result, da) := by
              show paretoInner L k (paretoStepIdx L (result, da) k) = _
              rw [hstep]
            rw [hred]
            exact ih result da
      · have hstep : paretoStepIdx L (result, da) k = (result, da) := by
          simp [paretoStepIdx, hk]
        have hred : paretoInner L (k + 1) (result, da)
            = paretoInner L k (result, da) := by
          show paretoInner L k (paretoStepIdx L (result, da) k) = _
          rw [hstep]
        rw [hred]
        exact ih result da

/-- The outer-iteration facts: the new result only holds old values or
`L`; an old value survives unless its verdict was `1`; and either `L` is
appended or a surviving value with verdict `-1` blocked it. -/
theorem paretoStep_facts (result : List (List Nat)) (L : List Nat) :
    (∀ z ∈ paretoStep result L, z ∈ result ∨ z = L) ∧
      (∀ z ∈ result, z ∈ paretoStep result L ∨ pareto_cmp z L = 1) ∧
      (L ∈ paretoStep result L ∨ ∃ x ∈ paretoStep result L, pareto_cmp x L = -1) := by
  obtain ⟨f1, f2, f3⟩ := paretoInner_facts L result.length result true
  have hdef : paretoStep result L =
      if (paretoInner L result.length (result, true)).2
        then (paretoInner L result.length (result, true)).1 ++ [L]
        else (paretoInner L result.length (result, true)).1 := rfl
  cases hda : (paretoInner L result.length (result, true)).2
  · rw [hdef, hda]
    simp only [Bool.false_eq_true, if_false]
    rcases f3 hda with h | h
    · exact absurd h (by decide)
    · exact ⟨fun z hz => Or.inl (f1 z hz), fun z hz => f2 z hz, Or.inr h⟩
  · rw [hdef, hda]
    simp only [if_true]
    refine ⟨?_, ?_, ?_⟩
    · intro z hz
      rcases List.mem_append.mp hz with h | h
      · exact Or.inl (f1 z h)
      · exact Or.inr (List.mem_singleton.mp h)
    · intro z hz
      rcases f2 z hz with h | h
      · exact Or.inl (List.mem_append_left _ h)
      · exact Or.inr h
    · exact Or.inl (List.mem_append_right _ (List.mem_singleton.mpr rfl))

/-- Fold-level invariant of `pareto_mins`: the result stays within the
seen vectors, and every seen vector is dominated-or-equalled by a
surviving one. -/
theorem paretoFold_cover (n : Nat) :
    ∀ (X R : List (List Nat)),
      (∀ z ∈ R, z.length = n) → (∀ x ∈ X, x.length = n) →
      (∀ z ∈ X.foldl paretoStep R, z ∈ R ∨ z ∈ X) ∧
      (∀ y ∈ R, ∃ z ∈ X.foldl paretoStep R, paretoLeB z y = true) ∧
      (∀ y ∈ X, ∃ z ∈ X.foldl paretoStep R, paretoLeB z y = true) := by
  intro X
  induction X with
  | nil =>
      intro R hR _
      exact ⟨fun z hz => Or.inl hz, fun y hy => ⟨y, hy, paretoLeB_refl y⟩,
        fun y hy => absurd hy (List.not_mem_nil y)⟩
  | cons L X2 ih =>
      intro R hR hX
      have hLn : L.length = n := hX L (List.mem_cons_self L X2)
      obtain ⟨s1, s2, s3⟩ := paretoStep_facts R L
      have hstepn : ∀ z ∈ paretoStep R L, z.length = n := by
        intro z hz
        rcases s1 z hz with h | h
        · exact hR z h
        · rw [h]; exact hLn
      obtain ⟨f1, f2, f3⟩ := ih (paretoStep R L) hstepn
        (fun x hx => hX x (List.mem_cons_of_mem L hx))
      have hfold : (L :: X2).foldl paretoStep R = X2.foldl paretoStep (paretoStep R L) := rfl
      have hFn : ∀ z ∈ X2.foldl paretoStep (paretoStep R L), z.length = n := by
        intro z hz
        rcases f1 z hz with h | h
        · exact hstepn z h
        · exact hX z (List.mem_cons_of_mem L h)
      have hLcov : ∃ z ∈ X2.foldl paretoStep (paretoStep R L), paretoLeB z L = true := by
        rcases s3 with hL | ⟨x, hx, hcmp⟩
        · exact f2 L hL
        · rcases f2 x hx with ⟨z, hzF, hzx⟩
          exact ⟨z, hzF, paretoLeB_trans
            (Nat.le_of_eq (by rw [hFn z hzF, hstepn x hx])) hzx (leB_of_cmp_negone hcmp)⟩
      rw [hfold]
      refine ⟨?_, ?_, ?_⟩
      · intro z hz
        rcases f1 z hz with h | h
        · rcases s1 z h with h2 | h2
          · exact Or.inl h2
          · exact Or.inr (h2 ▸ List.mem_cons_self L X2)
        · exact Or.inr (List.mem_cons_of_mem L h)
      · intro y hy
        rcases s2 y hy with h | h
        · exact f2 y h
        · rcases hLcov with ⟨z, hzF, hzL⟩
          exact ⟨z, hzF, paretoLeB_trans (Nat.le_of_eq (by rw [hFn z hzF, hLn])) hzL
            (leB_of_cmp_one (Nat.le_of_eq (by rw [hLn, hR y hy])) h)⟩
      · intro y hy
        rcases List.mem_cons.mp hy with rfl | hy2
        · exact hLcov
        · exact f3 y hy2

theorem pareto_mins_facts (n : Nat) (X : List (List Nat)) (hn : ∀ x ∈ X, x.length = n) :
    (∀ z ∈ pareto_mins X, z ∈ X) ∧
      (∀ y ∈ X, ∃ z ∈ pareto_mins X, paretoLeB z y = true) := by
  obtain ⟨f1, f2, f3⟩ := paretoFold_cover n X []
    (fun z hz => absurd hz (List.not_mem_nil z)) hn
  refine ⟨?_, f3⟩
  intro z hz
  rcases f1 z hz with h | h
  · exact absurd h (List.not_mem_nil z)
  · exact h

theorem foldl_min_le_init (l : List Nat) : ∀ acc, l.foldl Nat.min acc ≤ acc := by
  induction l with
  | nil => intro acc; exact Nat.le_refl acc
  | cons a rest ih =>
      intro acc
      rw [List.foldl_cons]
      exact Nat.le_trans (ih (Nat.min acc a)) (Nat.min_le_left acc a)

theorem foldl_min_le_mem (l : List Nat) : ∀ acc, ∀ a ∈ l, l.foldl Nat.min acc ≤ a := by
  induction l with
  | nil => intro acc a ha; cases ha
  | cons b rest ih =>
      intro acc a ha
      rw [List.foldl_cons]
      rcases List.mem_cons.mp ha with rfl | ha
      · exact Nat.le_trans (foldl_min_le_init rest (Nat.min acc a)) (Nat.min_le_right acc a)
      · exact ih (Nat.min acc b) a ha

theorem foldl_min_cases (l : List Nat) :
    ∀ acc, l.foldl Nat.min acc = acc ∨ l.foldl Nat.min acc ∈ l := by
  induction l with
  | nil => intro acc; exact Or.inl rfl
  | cons a rest ih =>
      intro acc
      rw [List.foldl_cons]
      rcases ih (Nat.min acc a) with h | h
      · rw [h]
        unfold Nat.min
        by_cases hab : acc ≤ a
        · exact Or.inl (inf_eq_left.mpr hab)
        · rw [inf_eq_right.mpr (le_of_not_le hab)]
          exact Or.inr (List.mem_cons_self a rest)
      · exact Or.inr (List.mem_cons_of_mem a h)

theorem listMin_le (l : List Nat) : ∀ a ∈ l, listMin l ≤ a := by
  intro a ha
  cases l with
  | nil => cases ha
  | cons b rest =>
      show rest.foldl Nat.min b ≤ a
      rcases List.mem_cons.mp ha with rfl | ha
      · exact foldl_min_le_init rest a
      · exact foldl_min_le_mem rest b a ha

theorem listMin_mem {l : List Nat} (h : l ≠ []) : listMin l ∈ l := by
  cases l with
  | nil => exact absurd rfl h
  | cons b rest =>
      show rest.foldl Nat.min b ∈ b :: rest
      rcases foldl_min_cases rest b with h2 | h2
      · rw [h2]
        exact List.mem_cons_self b rest
      · exact List.mem_cons_of_mem b h2

theorem le_listMax (l : List Nat) : ∀ a ∈ l, a ≤ listMax l := by
  intro a ha
  cases l with
  | nil => cases ha
  | cons b rest =>
      show a ≤ rest.foldl Nat.max b
      rcases List.mem_cons.mp ha with rfl | ha
      · exact foldl_max_init_le rest a
      · exact mem_le_foldl_max rest b a ha

theorem listMax_le_of {l : List Nat} {c : Nat} (h : ∀ a ∈ l, a ≤ c) : listMax l ≤ c := by
  cases l with
  | nil => exact Nat.zero_le c
  | cons b rest =>
      show rest.foldl Nat.max b ≤ c
      exact foldl_max_le rest b (h b (List.mem_cons_self b rest))
        (fun a ha => h a (List.mem_cons_of_mem b ha))

theorem listMax_map_le_of_sub (f : List Nat → Nat) {S T : List (List Nat)}
    (h : ∀ z ∈ S, z ∈ T) : listMax (S.map f) ≤ listMax (T.map f) := by
  apply listMax_le_of
  intro a ha
  rcases List.mem_map.mp ha with ⟨z, hz, rfl⟩
  exact le_listMax _ (f z) (List.mem_map.mpr ⟨z, h z hz, rfl⟩)

theorem getDNat_mem (l : List Nat) (j : Nat) (hj : j < l.length) : l.getD j 0 ∈ l := by
  rw [List.getD_eq_getElem?_getD, List.getElem?_eq_getElem hj]
  exact List.getElem_mem hj

theorem sum_le_of_leB : ∀ {x y : List Nat}, x.length = y.length →
    paretoLeB x y = true → x.sum ≤ y.sum := by
  intro x
  induction x with
  | nil =>
      intro y hlen _
      have hy : y = [] := List.length_eq_zero.mp hlen.symm
      rw [hy]
  | cons a x2 ih =>
      intro y hlen hle
      cases y with
      | nil => simp at hlen
      | cons b y2 =>
          rw [paretoLeB_iff] at hle
          have hab : a ≤ b := by
            have h := hle 0 (by simp)
            simpa using h
          have htail : paretoLeB x2 y2 = true := by
            rw [paretoLeB_iff]
            intro j hj
            have h := hle (j + 1) (by simp only [List.length_cons]; omega)
            simpa using h
          have hlen2 : x2.length = y2.length := by simpa using hlen
          rw [List.sum_cons, List.sum_cons]
          exact Nat.add_le_add hab (ih hlen2 htail)

theorem sum_lt_of_pointwise : ∀ {x y : List Nat}, x.length = y.length →
    (∀ j < x.length, x.getD j 0 ≤ y.getD j 0) →
    ∀ j, j < x.length → x.getD j 0 < y.getD j 0 → x.sum < y.sum := by
  intro x
  induction x with
  | nil =>
      intro y _ _ j hj
      simp at hj
  | cons a x2 ih =>
      intro y hlen hle j hj hstrict
      cases y with
      | nil => simp at hlen
      | cons b y2 =>
          have hab : a ≤ b := by
            have h := hle 0 (by simp)
            simpa using h
          have htail : ∀ j < x2.length, x2.getD j 0 ≤ y2.getD j 0 := by
            intro i hi
            have h := hle (i + 1) (by simp only [List.length_cons]; omega)
            simpa using h
          have hlen2 : x2.length = y2.length := by simpa using hlen
          rw [List.sum_cons, List.sum_cons]
          cases j with
          | zero =>
              have hab2 : a < b := by simpa using hstrict
              have := sum_le_of_leB hlen2 (paretoLeB_iff.mpr htail)
              omega
          | succ j =>
              have hj2 : j < x2.length := by simpa using hj
              have hst2 : x2.getD j 0 < y2.getD j 0 := by simpa using hstrict
              have := ih hlen2 htail j hj2 hst2
              omega

theorem leB_of_ltB {x y : List Nat} (h : paretoLtB x y = true) : paretoLeB x y = true := by
  unfold paretoLtB at h
  simp only [Bool.and_eq_true] at h
  exact h.1

theorem sum_lt_of_ltB {x y : List Nat} (hlen : x.length = y.length)
    (h : paretoLtB x y = true) : x.sum < y.sum := by
  have hle := leB_of_ltB h
  have hnot : paretoLeB y x = false := by
    unfold paretoLtB at h
    simp only [Bool.and_eq_true] at h
    cases hc : paretoLeB y x
    · rfl
    · rw [hc] at h
      rcases h with ⟨-, h2⟩
      cases h2
  have hpoint := paretoLeB_iff.mp hle
  have hstrict : ∃ j, j < y.length ∧ x.getD j 0 < y.getD j 0 := by
    by_contra hc
    have : paretoLeB y x = true := by
      rw [paretoLeB_iff]
      intro j hj
      by_contra hc2
      exact hc ⟨j, hj, by omega⟩
    rw [this] at hnot
    cases hnot
  rcases hstrict with ⟨j, hj, hjs⟩
  exact sum_lt_of_pointwise hlen hpoint j (by omega) hjs

theorem listMin_le_of_leB {x y : List Nat} (hlen : x.length = y.length)
    (hle : paretoLeB x y = true) : listMin x ≤ listMin y := by
  by_cases hy : y = []
  · have hx : x = [] := List.length_eq_zero.mp (by rw [hlen, hy]; rfl)
    rw [hx, hy]
  · have hm := listMin_mem hy
    rcases List.mem_iff_getElem.mp hm with ⟨j, hj, hje⟩
    have hgd : y.getD j 0 = listMin y := by
      rw [List.getD_eq_getElem?_getD, List.getElem?_eq_getElem hj]
      exact hje
    have hxj : listMin x ≤ x.getD j 0 := listMin_le x _ (getDNat_mem x j (by omega))
    have hpt := paretoLeB_iff.mp hle j (by omega)
    omega

theorem trueParetoMins_sub (X : List (List Nat)) :
    ∀ z ∈ trueParetoMins X, z ∈ X :=
  fun _ hz => List.mem_of_mem_filter hz

/-- Every vector of `X` has a truly Pareto-minimal vector below it
(well-founded descent on the coordinate sum). -/
theorem trueParetoMins_cover (n : Nat) (X : List (List Nat))
    (hn : ∀ x ∈ X, x.length = n) :
    ∀ y ∈ X, ∃ z ∈ trueParetoMins X, paretoLeB z y = true := by
  have key : ∀ (s : Nat) (y : List Nat), y ∈ X → y.sum ≤ s →
      ∃ z ∈ trueParetoMins X, paretoLeB z y = true := by
    intro s
    induction s with
    | zero =>
        intro y hy hs
        by_cases hmin : X.all (fun z => !paretoLtB z y) = true
        · exact ⟨y, List.mem_filter.mpr ⟨hy, hmin⟩, paretoLeB_refl y⟩
        · exfalso
          have hdom : ∃ z ∈ X, paretoLtB z y = true := by
            by_contra hc
            apply hmin
            rw [List.all_eq_true]
            intro z hz
            cases hb : paretoLtB z y
            · rfl
            · exact absurd ⟨z, hz, hb⟩ hc
          rcases hdom with ⟨z, hz, hlt⟩
          have := sum_lt_of_ltB (by rw [hn z hz, hn y hy]) hlt
          omega
    | succ s ih =>
        intro y hy hs
        by_cases hmin : X.all (fun z => !paretoLtB z y) = true
        · exact ⟨y, List.mem_filter.mpr ⟨hy, hmin⟩, paretoLeB_refl y⟩
        · have hdom : ∃ z ∈ X, paretoLtB z y = true := by
            by_contra hc
            apply hmin
            rw [List.all_eq_true]
            intro z hz
            cases hb : paretoLtB z y
            · rfl
            · exact absurd ⟨z, hz, hb⟩ hc
          rcases hdom with ⟨z, hz, hlt⟩
          have hslt := sum_lt_of_ltB (by rw [hn z hz, hn y hy]) hlt
          rcases ih z hz (by omega) with ⟨m, hm, hml⟩
          refine ⟨m, hm, paretoLeB_trans ?_ hml (leB_of_ltB hlt)⟩
          exact Nat.le_of_eq (by rw [hn m (trueParetoMins_sub X m hm), hn z hz])
  intro y hy
  exact key y.sum y hy (Nat.le_refl _)

/-- A truly Pareto-minimal vector is never blocked and never dropped by
the buggy filter: blocking and dropping both need a strictly smaller
first coordinate. -/
theorem paretoFold_keeps_mins (n : Nat) (X : List (List Nat))
    (hn : ∀ x ∈ X, x.length = n) (hpos : 0 < n) :
    ∀ (suffix R : List (List Nat)), (∀ z ∈ R, z ∈ X) → (∀ z ∈ suffix, z ∈ X) →
      ∀ y ∈ trueParetoMins X, (y ∈ R ∨ y ∈ suffix) →
        y ∈ suffix.foldl paretoStep R := by
  intro suffix
  induction suffix with
  | nil =>
      intro R _ _ y _ hyin
      rcases hyin with h | h
      · exact h
      · cases h
  | cons L suf ih =>
      intro R hR hsuf y hy hyin
      obtain ⟨s1, s2, s3⟩ := paretoStep_facts R L
      have hLX : L ∈ X := hsuf L (List.mem_cons_self L suf)
      have hstepX : ∀ z ∈ paretoStep R L, z ∈ X := by
        intro z hz
        rcases s1 z hz with h | h
        · exact hR z h
        · rw [h]; exact hLX
      have hymin : X.all (fun z => !paretoLtB z y) = true := (List.mem_filter.mp hy).2
      have hyX : y ∈ X := (List.mem_filter.mp hy).1
      have hylen : 0 < y.length := by rw [hn y hyX]; exact hpos
      have hfold : (L :: suf).foldl paretoStep R = suf.foldl paretoStep (paretoStep R L) := rfl
      rw [hfold]
      apply ih (paretoStep R L) hstepX (fun z hz => hsuf z (List.mem_cons_of_mem L hz)) y hy
      rcases hyin with hyR | hyLsuf
      · left
        rcases s2 y hyR with h | h
        · exact h
        · exfalso
          have hlt : paretoLtB L y = true :=
            ltB_of_cmp_one hylen (Nat.le_of_eq (by rw [hn L hLX, hn y hyX])) h
          have hall := List.all_eq_true.mp hymin L hLX
          rw [hlt] at hall
          cases hall
      · rcases List.mem_cons.mp hyLsuf with heq | hysuf
        · left
          rcases s3 with h | ⟨x, hx, hcmp⟩
          · rw [heq]
            exact h
          · exfalso
            have hxX : x ∈ X := hstepX x hx
            have hlt : paretoLtB x L = true :=
              ltB_of_cmp_negone (by rw [hn L hLX]; exact hpos) hcmp
            rw [← heq] at hlt
            have hall := List.all_eq_true.mp hymin x hxX
            rw [hlt] at hall
            cases hall
        · right
          exact hysuf

theorem trueParetoMins_sub_pareto_mins (n : Nat) (hpos : 0 < n)
    (X : List (List Nat)) (hn : ∀ x ∈ X, x.length = n) :
    ∀ y ∈ trueParetoMins X, y ∈ pareto_mins X := by
  intro y hy
  exact paretoFold_keeps_mins n X hn hpos X []
    (fun z hz => absurd hz (List.not_mem_nil z)) (fun z hz => hz) y hy
    (Or.inr (trueParetoMins_sub X y hy))

/-- C9 amended: on vectors of a common positive length, the buggy
`pareto_mins` keeps a sublist of the candidates that still dominates
every candidate and contains every truly Pareto-minimal vector, so the
minimum-based metrics `sp` and `srh` equal the values over the truly
Pareto-minimal ancestors exactly as the claim states, while the
maximum-based `brh` is only bounded below by the claimed value — the
counterexample shows the two can differ, because `pareto_cmp` never
compares vectors tying on their first coordinate. -/
theorem claim_C9_amended_pareto (n : Nat) (X : List (List Nat)) (hpos : 0 < n)
    (hn : ∀ x ∈ X, x.length = n) (hne : X ≠ []) :
    (∀ z ∈ pareto_mins X, z ∈ X) ∧
      (∀ y ∈ X, ∃ z ∈ pareto_mins X, paretoLeB z y = true) ∧
      listMin ((pareto_mins X).map List.sum)
          = listMin ((trueParetoMins X).map List.sum) ∧
      listMin ((pareto_mins X).map listMin)
          = listMin ((trueParetoMins X).map listMin) ∧
      listMax ((trueParetoMins X).map listMax) ≤ listMax ((pareto_mins X).map listMax) := by
  obtain ⟨hsub, hcov⟩ := pareto_mins_facts n X hn
  have htsub := trueParetoMins_sub X
  have htcov := trueParetoMins_cover n X hn
  have key : ∀ (f : List Nat → Nat),
      (∀ z y, z ∈ X → y ∈ X → paretoLeB z y = true → f z ≤ f y) →
      ∀ (S : List (List Nat)), (∀ z ∈ S, z ∈ X) →
        (∀ y ∈ X, ∃ z ∈ S, paretoLeB z y = true) →
        listMin (S.map f) = listMin (X.map f) := by
    intro f hmono S hSX hScov
    have hXone : ∃ y, y ∈ X := by
      cases X with
      | nil => exact absurd rfl hne
      | cons a l => exact ⟨a, List.mem_cons_self a l⟩
    rcases hXone with ⟨y0, hy0⟩
    rcases hScov y0 hy0 with ⟨z0, hz0, -⟩
    have hSne : S ≠ [] := by
      intro hc
      rw [hc] at hz0
      cases hz0
    apply Nat.le_antisymm
    · have hXmapne : X.map f ≠ [] := by
        intro hc
        exact hne (List.map_eq_nil_iff.mp hc)
      have hmem := listMin_mem hXmapne
      rcases List.mem_map.mp hmem with ⟨y, hyX, hyf⟩
      rcases hScov y hyX with ⟨z, hzS, hzle⟩
      have h1 : listMin (S.map f) ≤ f z := listMin_le _ _ (List.mem_map.mpr ⟨z, hzS, rfl⟩)
      have h2 : f z ≤ f y := hmono z y (hSX z hzS) hyX hzle
      omega
    · have hSmapne : S.map f ≠ [] := by
        intro hc
        exact hSne (List.map_eq_nil_iff.mp hc)
      have hmem := listMin_mem hSmapne
      rcases List.mem_map.mp hmem with ⟨z, hzS, hzf⟩
      have h1 : listMin (X.map f) ≤ f z := listMin_le _ _ (List.mem_map.mpr ⟨z, hSX z hzS, rfl⟩)
      omega
  refine ⟨hsub, hcov, ?_, ?_, ?_⟩
  · rw [key List.sum (fun z y hzX hyX hle => sum_le_of_leB (by rw [hn z hzX, hn y hyX]) hle)
        (pareto_mins X) hsub hcov,
      key List.sum (fun z y hzX hyX hle => sum_le_of_leB (by rw [hn z hzX, hn y hyX]) hle)
        (trueParetoMins X) htsub htcov]
  · rw [key listMin (fun z y hzX hyX hle => listMin_le_of_leB (by rw [hn z hzX, hn y hyX]) hle)
        (pareto_mins X) hsub hcov,
      key listMin (fun z y hzX hyX hle => listMin_le_of_leB (by rw [hn z hzX, hn y hyX]) hle)
        (trueParetoMins X) htsub htcov]
  · exact listMax_map_le_of_sub listMax (trueParetoMins_sub_pareto_mins n hpos X hn)

theorem claim_C9_amended_pareto_witness :
    listMin ((pareto_mins (commonParentVectors c9Net 7)).map List.sum)
      = listMin ((trueParetoMins (commonParentVectors c9Net 7)).map List.sum) :=
  (claim_C9_amended_pareto 2 (commonParentVectors c9Net 7) (by decide) (by decide)
    (by decide)).2.2.1

/-! ### NestingDepth (`num_prop.py`, class `NestingDepth`) -/

/-- `NestingDepth.climb_tree_until`: walk upward through first predecessors
(`predecessors(u)[0]`) from `u`, adding each visited vertex to the taboo list,
until a reticulation, the `blocker`, or an already-taboo vertex is reached;
returns the stopping vertex and the grown taboo list.  The fuel is called with
`|nodes| + 1`, enough because every iteration taboos a fresh vertex. -/
def climbTreeUntil (N : Net) : Nat -> Nat -> Nat -> List Nat -> Nat × List Nat
  | 0, u, _, taboo => (u, taboo)
  | fuel + 1, u, blocker, taboo =>
      if !N.isReticulation u ∧ u ≠ blocker ∧ u ∉ taboo then
        climbTreeUntil N fuel ((N.preds u).headD 0) blocker (taboo ++ [u])
      else (u, taboo)

/-- The `while True` loop inside `NestingDepth.goto_lowest_stable`: climb from
`p`; on reaching the stable target stop successfully; on reaching a
reticulation `u`, record the nesting-tree edge `(r, u)` and continue the climb
from `dominators[u]`; any other stop is a taboo hit, modelled as `none`
(the source then runs `self.set(-1); return`, and in non-verbose mode `check`
propagates the `-1` out at the next loop head).  Each jump moves strictly up
in topological order, so fuel `|nodes| + 1` suffices. -/
def gotoInner (N : Net) (idom : Nat -> Nat) (r stab : Nat) :
    Nat -> Nat -> List Nat -> List (Nat × Nat) -> Option (List Nat × List (Nat × Nat))
  | 0, _, taboo, tree => some (taboo, tree)
  | fuel + 1, p, taboo, tree =>
      match climbTreeUntil N (N.nodes.length + 1) p stab taboo with
      | (u, taboo2) =>
          if u = stab then some (taboo2, tree)
          else if N.isReticulation u then
            gotoInner N idom r stab fuel (idom u) taboo2 (tree ++ [(r, u)])
          else none

/-- `NestingDepth.goto_lowest_stable(r, taboo_nodes)`: run the inner climb
from every predecessor of `r` toward `stable_on_r = dominators[r]`, threading
the taboo list and the nesting-tree edge list; a taboo hit short-circuits to
`none`.  (The memo `self.lowest_stable` of the source is dead code: the dict
is created empty and no entry is ever inserted, so the `r not in
self.lowest_stable` guard is always true and is omitted here.) -/
def gotoLowestStable (N : Net) (idom : Nat -> Nat) (r : Nat)
    (st : List Nat × List (Nat × Nat)) : Option (List Nat × List (Nat × Nat)) :=
  (N.preds r).foldl
    (fun acc p =>
      match acc with
      | none => none
      | some (taboo, tree) =>
          gotoInner N idom r (idom r) (N.nodes.length + 1) p taboo tree)
    (some st)

/-- Parent of `x` in the nesting tree: the first recorded edge that enters
`x`.  (`depth_in_nesting_tree` reads `nesting_tree.predecessors(r)` and raises
when a vertex has two parents; on the inputs considered here every vertex has
at most one and the first-edge lookup is exact.) -/
def treeParent (tree : List (Nat × Nat)) (x : Nat) : Option Nat :=
  (tree.find? (fun e => e.2 = x)).map (fun e => e.1)

/-- `NestingDepth.depth_in_nesting_tree(r, depths)`: memoised depth of `r` in
the nesting tree — a root gets depth `1` (and, as in the source, is *not*
stored in the memo), a non-root gets its parent's depth plus one and is
stored.  Returns the depth and the updated memo; fuel bounds the parent
chain. -/
def depthInNestingTree (tree : List (Nat × Nat)) :
    Nat -> Nat -> List (Nat × Nat) -> Nat × List (Nat × Nat)
  | 0, _, depths => (1, depths)
  | fuel + 1, x, depths =>
      match aFind depths x with
      | some d => (d, depths)
      | none =>
          match treeParent tree x with
          | some p =>
              match depthInNestingTree tree fuel p depths with
              | (dp, depths2) => (dp + 1, aSet depths2 x (dp + 1))
          | none => (1, depths)

/-- The body of `NestingDepth.check` for one biconnected block `B` of size
`> 2`: take the reticulations of the block (`BR = B ∩ reticulations`, in
reticulation-list order), run `goto_lowest_stable` for each over a shared
taboo list and nesting tree, and — when no taboo was hit — return
`max(depths.values() or [1])` over the memo produced by
`depth_in_nesting_tree`; a taboo hit gives `none` (the source's `-1`). -/
def blockNd (N : Net) (idom : Nat -> Nat) (retics : List Nat) (B : List Nat) : Option Nat :=
  match (retics.filter (fun r => decide (r ∈ B))).foldl
      (fun acc r =>
        match acc with
        | none => none
        | some st => gotoLowestStable N idom r st)
      (some ([], [])) with
  | none => none
  | some (_, tree) =>
      match (retics.filter (fun r => decide (r ∈ B))).foldl
          (fun ds r => (depthInNestingTree tree (retics.length + 1) r ds).2) [] with
      | depths => some (if depths.isEmpty then 1 else listMax (depths.map Prod.snd))

/-- The block loop of `NestingDepth.check` in non-verbose mode, carrying
`self.val` explicitly.  Blocks of size `≤ 2` are skipped.  For a big block:
a taboo hit (`blockNd = none`) makes the final value `-1` (the source sets
`-1`, then `if self.val is None` fails and `elif not network.verbose: return`
fires at the next loop head); a successful block with `val` still unset
stores its depth and continues; a successful *later* big block triggers the
same early return, so the stored value of the *first* big block is returned
and later blocks never contribute.  An exhausted loop returns the stored
value, or `0` when every block was small (`set_if_none(0)`). -/
def ndLoop (N : Net) (idom : Nat -> Nat) (retics : List Nat) :
    List (List Nat) -> Option Int -> Int
  | [], val => val.getD 0
  | B :: rest, val =>
      if 2 < B.length then
        match blockNd N idom retics B with
        | none => -1
        | some d =>
            match val with
            | none => ndLoop N idom retics rest (some (Int.ofNat d))
            | some v => v
      else ndLoop N idom retics rest val

/-- `NestingDepth.check`: when the level is `> 1`, run the block loop over the
biconnected components (passed here as an explicit list, because the
enumeration order of `networkx.biconnected_components` is unspecified);
otherwise return the level itself. -/
def nestingDepthCheck (N : Net) (idom : Nat -> Nat) (retics : List Nat)
    (lvl : Nat) (blocks : List (List Nat)) : Int :=
  if 1 < lvl then ndLoop N idom retics blocks none else Int.ofNat lvl

/-- The value claimed for `nd` by the specification: the level when it is at
most `1`; `-1` when some big block has a taboo hit; otherwise the *maximum*
of the per-block nesting-forest depths over all blocks of size `> 2`. -/
def claimNestingDepth (N : Net) (idom : Nat -> Nat) (retics : List Nat)
    (lvl : Nat) (blocks : List (List Nat)) : Int :=
  if 1 < lvl then
    if (blocks.filter (fun B => decide (2 < B.length))).any
        (fun B => (blockNd N idom retics B).isNone) then -1
    else
      Int.ofNat (listMax ((blocks.filter (fun B => decide (2 < B.length))).map
        (fun B => (blockNd N idom retics B).getD 1)))
  else Int.ofNat lvl

/-- A validated 16-vertex network with two big biconnected blocks of
different nesting depths: the cycle `0-1-3-2` (block `{0,1,2,3}`, one
reticulation `3`, nesting depth `1`) and, below `3`, the nested pair of
cycles `4-5-8-6` inside `4-...-9-7` (block `{4,...,9}`, reticulations `8`
and `9`, nesting depth `2`).  Leaves `10`–`15` hang off the tree vertices. -/
def c8Net : Net :=
  ⟨[0, 1, 2, 3, 4, 5, 6, 7, 8, 9, 10, 11, 12, 13, 14, 15],
   [(0, 1), (0, 2), (1, 3), (2, 3), (1, 10), (2, 11), (3, 4), (4, 5), (4, 6), (4, 7),
    (5, 8), (6, 8), (5, 12), (6, 13), (7, 9), (8, 9), (7, 14), (9, 15)]⟩

/-- The immediate-dominator table of `c8Net` (certified against the walk
semantics by `IdomSpecHolds` inside the counterexample). -/
def c8Idom : Nat -> Nat := fun x =>
  match x with
  | 1 => 0 | 2 => 0 | 3 => 0 | 4 => 3 | 5 => 4 | 6 => 4 | 7 => 4 | 8 => 4 | 9 => 4
  | 10 => 1 | 11 => 2 | 12 => 5 | 13 => 6 | 14 => 7 | 15 => 9
  | _ => 0

set_option maxRecDepth 10000 in
set_option maxHeartbeats 4000000 in
/-- C8, counterexample.  On the validated network `c8Net` (reticulations
`3, 8, 9`, level `2`), the two big biconnected blocks are `{0,1,2,3}`
(containing edge `(0,1)`; per-block nesting depth `1`, its lone cycle gives
an empty nesting tree) and `{4,...,9}` (containing edge `(4,5)`; depth `2`,
reticulation `8` nests inside the cycle of `9`) — the remaining eight edges
are bridges, so they form only size-2 blocks, which `check` skips.  The
claimed value, the maximum depth over big blocks, is `2` whichever way the
blocks are listed; but `NestingDepth.check` returns the depth of the *first*
big block the enumeration yields — `1` when `{0,1,2,3}` comes first — because
after storing the first big block's depth, the next big block falls into
`elif not network.verbose: return` (recursion and heartbeat limits raised
below only for this concrete kernel computation).  The per-block value itself
is robust to the reticulation iteration order (`[3,8,9]` and `[9,8,3]` agree), so the
divergence is exactly the claimed "maximum over blocks". -/
theorem claim_C8_counterexample :
    updateInfos c8Net = .ok ⟨some 0, some 0, [3, 8, 9], [10, 11, 12, 13, 14, 15]⟩ ∧
      blockOfEdge c8Net (0, 1) = [0, 1, 2, 3] ∧
      blockOfEdge c8Net (4, 5) = [4, 5, 6, 7, 8, 9] ∧
      maxPerBlock [3, 8, 9] [[0, 1, 2, 3], [4, 5, 6, 7, 8, 9]] = 2 ∧
      blockNd c8Net c8Idom [3, 8, 9] [0, 1, 2, 3] = some 1 ∧
      blockNd c8Net c8Idom [3, 8, 9] [4, 5, 6, 7, 8, 9] = some 2 ∧
      blockNd c8Net c8Idom [9, 8, 3] [4, 5, 6, 7, 8, 9] = some 2 ∧
      nestingDepthCheck c8Net c8Idom [3, 8, 9] 2 [[0, 1, 2, 3], [4, 5, 6, 7, 8, 9]] = 1 ∧
      nestingDepthCheck c8Net c8Idom [3, 8, 9] 2 [[4, 5, 6, 7, 8, 9], [0, 1, 2, 3]] = 2 ∧
      claimNestingDepth c8Net c8Idom [3, 8, 9] 2 [[0, 1, 2, 3], [4, 5, 6, 7, 8, 9]] = 2 ∧
      claimNestingDepth c8Net c8Idom [3, 8, 9] 2 [[4, 5, 6, 7, 8, 9], [0, 1, 2, 3]] = 2 ∧
      IdomSpecHolds c8Net 0 c8Idom := by
  decide

/-- C8, amended.  What `NestingDepth.check` returns (in non-verbose mode)
is the nesting depth of the *first* big block of the enumeration, not the
maximum over blocks: whenever `lvl > 1` and two blocks of size `> 2` have
successful per-block depths `d1` and `d2`, the code yields `d1` on the order
`[B1, B2]` and `d2` on the order `[B2, B1]`, while the claimed value is
`max d1 d2` — so the result is enumeration-order dependent and agrees with
the claim only when the deepest big block happens to come first. -/
theorem claim_C8_amended_first_block
    (N : Net) (idom : Nat -> Nat) (retics : List Nat) (lvl : Nat)
    (B1 B2 : List Nat) (d1 d2 : Nat)
    (hlvl : 1 < lvl) (hb1 : 2 < B1.length) (hb2 : 2 < B2.length)
    (h1 : blockNd N idom retics B1 = some d1)
    (h2 : blockNd N idom retics B2 = some d2) :
    nestingDepthCheck N idom retics lvl [B1, B2] = Int.ofNat d1 ∧
      nestingDepthCheck N idom retics lvl [B2, B1] = Int.ofNat d2 ∧
      claimNestingDepth N idom retics lvl [B1, B2] = Int.ofNat (Nat.max d1 d2) := by
  refine ⟨?_, ?_, ?_⟩
  · simp only [nestingDepthCheck, if_pos hlvl, ndLoop, if_pos hb1, if_pos hb2, h1, h2]
  · simp only [nestingDepthCheck, if_pos hlvl, ndLoop, if_pos hb1, if_pos hb2, h1, h2]
  · simp only [claimNestingDepth, if_pos hlvl, List.filter, decide_eq_true hb1,
      decide_eq_true hb2, List.any_cons, List.any_nil, h1, h2, Option.isNone_some,
      Bool.or_self, Bool.or_false, if_neg, List.map_cons, List.map_nil,
      Option.getD_some, Bool.false_eq_true, not_false_eq_true]
    rfl

set_option maxRecDepth 10000 in
set_option maxHeartbeats 1000000 in
theorem claim_C8_amended_first_block_witness :
    nestingDepthCheck c8Net c8Idom [3, 8, 9] 2 [[0, 1, 2, 3], [4, 5, 6, 7, 8, 9]]
      = Int.ofNat 1 :=
  (claim_C8_amended_first_block c8Net c8Idom [3, 8, 9] 2
    [0, 1, 2, 3] [4, 5, 6, 7, 8, 9] 1 2
    (by decide) (by decide) (by decide) (by decide) (by decide)).1
